import Mathlib

/-!
# MKShell: tokenizer, history ring, dispatcher and loop

A shallow embedding of `main.c`. Conventions:

* a byte of a `char` buffer is a `Char`; a buffer is a `List Char`, a pointer into it an offset,
  and the C string at an offset is what `cstr` reads;
* an argument vector handed to a command is the list of its strings, the empty list standing for
  a vector whose first entry is `NULL`;
* a function that can end the process or fault returns `Except Fault`;
* what the surroundings answer (system and library calls) is an `Env`, one for each cycle of the
  loop; the shell's own variables, its input and its output are a `Shell`;
* `mkshell_launch` covers both processes after the `fork`: what the child does with `execvp`
  decides what the shell's `waitpid` loop sees, and the status is the one returned in the shell;
* the handler for `SIGINT` and the calls to `free` on the line and on the argument vector have no
  counterpart here.
-/

namespace MKShell

/-! ## Tokenizer -/

/-- The terminating byte of a C string. -/
def NUL : Char := Char.ofNat 0

/-- The newline byte. -/
def NL : Char := Char.ofNat 10

/-- Reading `*p` in a character buffer; the byte after the modelled memory reads as the terminator. -/
def peek (buf : List Char) (p : Nat) : Char := buf.getD p NUL

/-- The C string that starts at offset `p` of a buffer: the bytes up to the first NUL. -/
def cstr (buf : List Char) (p : Nat) : List Char := (buf.drop p).takeWhile (fun c => c != NUL)

/-- Macro `MKSHELL_TOK_BUFSIZE`. -/
def MKSHELL_TOK_BUFSIZE : Nat := 64

/-- Macro `MKSHELL_TOK_DELIM`, the string `" \t\r\n\a"`. -/
def MKSHELL_TOK_DELIM : List Char :=
  [Char.ofNat 32, Char.ofNat 9, Char.ofNat 13, Char.ofNat 10, Char.ofNat 7]

/-- Library function `strspn`: length of the initial segment of the string at `p` made of bytes
of `accept`. -/
def strspn (buf : List Char) (p : Nat) (accept : List Char) : Nat :=
  ((buf.drop p).takeWhile (fun c => c != NUL && accept.elem c)).length

/-- Library function `strcspn`: length of the initial segment of the string at `p` made of bytes
that are not in `reject`. -/
def strcspn (buf : List Char) (p : Nat) (reject : List Char) : Nat :=
  ((buf.drop p).takeWhile (fun c => c != NUL && !reject.elem c)).length

/-- Library function `strtok`. `save` is its static saved position, `s` its first argument
(`none` for `NULL`). Returns the buffer, the new saved position and the token found. -/
def strtok (buf : List Char) (save : Nat) (s : Option Nat) (delim : List Char) :
    List Char × Nat × Option Nat :=
  let s0 := s.getD save
  let s1 := s0 + strspn buf s0 delim
  if peek buf s1 = NUL then (buf, s1, none)
  else
    let e := s1 + strcspn buf s1 delim
    if peek buf e = NUL then (buf, e, some s1)
    else (buf.set e NUL, e + 1, some s1)

/-- One slot of the `tokens` array. -/
inductive Slot
  | uninit
  | null
  | ptr (p : Nat)
  deriving DecidableEq, Repr

/-- Exit status `EXIT_SUCCESS`. -/
def EXIT_SUCCESS : Nat := 0

/-- Exit status `EXIT_FAILURE`. -/
def EXIT_FAILURE : Nat := 1

/-- Ways a run leaves the normal path: the process calls `exit(code)`, a store lands outside
its array, a pointer that is not a live string is read, or the model runs out of fuel. -/
inductive Fault
  | exit (code : Nat)
  | outOfBounds
  | badRead
  | fuel
  deriving DecidableEq, Repr

/-- Local state of `mkshell_split_line`. -/
structure SplitState where
  line : List Char
  save : Nat
  tokens : List Slot
  position : Nat
  bufsize : Nat
  stores : List (Nat × Nat × Nat)
  deriving DecidableEq, Repr

/-- Library function `realloc` on the token array: `n` slots, old contents kept. -/
def reallocSlots (tokens : List Slot) (n : Nat) : List Slot :=
  tokens.take n ++ List.replicate (n - tokens.length) Slot.uninit

/-- The assignment `tokens[position] = v`. -/
def storeToken (st : SplitState) (v : Slot) : Except Fault SplitState :=
  if st.position < st.tokens.length then
    .ok { st with tokens := st.tokens.set st.position v,
                  stores := st.stores ++ [(st.position, st.bufsize, st.tokens.length)] }
  else .error .outOfBounds

/-- The resize step of the loop body. -/
def growTokens (alloc : Nat → Bool) (st : SplitState) : Except Fault SplitState :=
  if st.position ≥ st.bufsize then
    let bufsize := st.bufsize + MKSHELL_TOK_BUFSIZE
    if alloc bufsize then
      .ok { st with bufsize := bufsize, tokens := reallocSlots st.tokens bufsize }
    else .error (.exit EXIT_FAILURE)
  else .ok st

/-- The `while (token != NULL)` loop of `mkshell_split_line`. -/
def splitLoop (alloc : Nat → Bool) : Nat → SplitState → Option Nat → Except Fault SplitState
  | _, st, none => .ok st
  | 0, _, some _ => .error .fuel
  | fuel + 1, st, some token =>
    match storeToken st (.ptr token) with
    | .error e => .error e
    | .ok st1 =>
      match growTokens alloc { st1 with position := st1.position + 1 } with
      | .error e => .error e
      | .ok st2 =>
        let r := strtok st2.line st2.save none MKSHELL_TOK_DELIM
        splitLoop alloc fuel { st2 with line := r.1, save := r.2.1 } r.2.2

/-- Function `mkshell_split_line`. -/
def mkshell_split_line (alloc : Nat → Bool) (line : List Char) : Except Fault SplitState :=
  let bufsize := MKSHELL_TOK_BUFSIZE
  if alloc bufsize then
    let r := strtok line 0 (some 0) MKSHELL_TOK_DELIM
    match splitLoop alloc line.length
        { line := r.1, save := r.2.1, tokens := List.replicate bufsize Slot.uninit,
          position := 0, bufsize := bufsize, stores := [] } r.2.2 with
    | .error e => .error e
    | .ok st => storeToken st .null
  else .error (.exit EXIT_FAILURE)

/-- Reading a NULL-terminated pointer array. -/
def argvPtrs : List Slot → Option (List Nat)
  | [] => none
  | .uninit :: _ => none
  | .null :: _ => some []
  | .ptr p :: rest => (argvPtrs rest).map (fun l => p :: l)

/-- The strings of the returned vector. -/
def argvStrings (st : SplitState) : Option (List (List Char)) :=
  (argvPtrs st.tokens).map (fun l => l.map (cstr st.line))

/-! ## Shell state and environment -/

/-- A string literal of the source, as the bytes of the C string. -/
def lit (s : String) : List Char := s.toList

/-- Macro `MKSHELL_HISTSIZE`. -/
def MKSHELL_HISTSIZE : Nat := 10

/-- Macro `MKSHELL_RL_BUFSIZE`. -/
def MKSHELL_RL_BUFSIZE : Nat := 1024

/-- Size of the array `cwd` in `mkshell_loop`. -/
def CWD_SIZE : Nat := 1024

/-- Size of the array `shell_prompt` in `mkshell_loop`. -/
def SHELL_PROMPT_SIZE : Nat := 100

/-- One slot of the global array `history`: a null pointer (the array is zero-initialised), a
pointer to a live string made by `strdup`, or a pointer whose string was passed to `free`. -/
inductive HSlot
  | null
  | str (s : List Char)
  | freed
  deriving DecidableEq, Repr

/-- How a launched program ends. -/
inductive ChildEnd
  | exited (code : Nat)
  | signaled (sig : Nat)
  deriving DecidableEq, Repr

/-- Calls with an effect outside the shell's own variables, in the order they are made. -/
inductive Sys
  | chdir (path : List Char)
  | opendir (path : List Char)
  | closedir
  | fopen (path mode : List Char)
  | fclose
  | fwrite (data : List Char)
  | mkdir (path : List Char) (mode : Nat)
  | rmdir (path : List Char)
  | remove (path : List Char)
  | fork
  | execvp (file : List Char) (argv : List (List Char))
  | childExit (code : Nat)
  | waitpid
  deriving DecidableEq, Repr

/-- The shell process: the globals `history` and `history_count`, what is left of standard
input, the chunks written to standard output and to standard error (each `printf`, `fprintf`
or `perror` is one chunk, taken as delivered at once), and the calls made. -/
structure Shell where
  history : List HSlot
  history_count : Nat
  stdin : List Char
  out : List (List Char)
  err : List (List Char)
  sys : List Sys
  deriving DecidableEq, Repr

/-- What the surroundings answer during one command cycle. A file is the finite list of chunks
its successive reads deliver; a launched program ends after finitely many stops. -/
structure Env where
  user : Option (List Char)
  cwd : Option (List Char)
  alloc : Nat → Bool
  strerror : List Char
  chdir : List Char → Bool
  opendir : Option (List (List Char))
  fopen : List Char → List Char → Option (List (List Char))
  mkdir : List Char → Bool
  rmdir : List Char → Bool
  remove : List Char → Bool
  fork : Bool
  execvp : List Char → Option ChildEnd
  stops : Nat

/-- The process at start: `history` zero-initialised, `history_count = 0`. -/
def Shell.start (input : List Char) : Shell where
  history := List.replicate MKSHELL_HISTSIZE HSlot.null
  history_count := 0
  stdin := input
  out := []
  err := []
  sys := []

/-- A chunk written to standard output. -/
def Shell.print (sh : Shell) (s : List Char) : Shell := { sh with out := sh.out ++ [s] }

/-- A chunk written to standard error. -/
def Shell.eprint (sh : Shell) (s : List Char) : Shell := { sh with err := sh.err ++ [s] }

/-- A call recorded. -/
def Shell.call (sh : Shell) (c : Sys) : Shell := { sh with sys := sh.sys ++ [c] }

/-- Library function `perror`. -/
def perror (env : Env) (sh : Shell) (s : List Char) : Shell :=
  sh.eprint (s ++ lit ": " ++ env.strerror ++ lit "\n")

/-- Library function `strcmp` on two strings, up to the sign of the result. -/
def strcmp : List Char → List Char → Int
  | [], [] => 0
  | [], _ :: _ => -1
  | _ :: _, [] => 1
  | a :: as, b :: bs => if a = b then strcmp as bs else if a.toNat < b.toNat then -1 else 1

/-- Library function `strdup` on the string at the start of a buffer. -/
def strdup (alloc : Nat → Bool) (buf : List Char) : HSlot :=
  if alloc ((cstr buf 0).length + 1) then .str (cstr buf 0) else .null

/-- Library function `getcwd` with a buffer of `size` bytes. -/
def getcwd (env : Env) (size : Nat) : Option (List Char) :=
  match env.cwd with
  | none => none
  | some p => if p.length + 1 ≤ size then some p else none

/-- Library function `snprintf` into a buffer of `size` bytes: the string left in the buffer. -/
def snprintf (size : Nat) (s : List Char) : List Char := s.take (size - 1)

/-! ## Built-in commands -/

/-- Function `mkshell_cd`. -/
def mkshell_cd (env : Env) (sh : Shell) (args : List (List Char)) : Except Fault (Int × Shell) :=
  match args[1]? with
  | none => .ok (1, sh.eprint (lit "mkshell: expected argument to \"cd\"\n"))
  | some dir =>
    if env.chdir dir then .ok (1, sh.call (.chdir dir))
    else .ok (1, perror env (sh.call (.chdir dir)) (lit "mkshell"))

/-- The `readdir` loop of `mkshell_ls`. -/
def lsLoop : List (List Char) → Shell → Shell
  | [], sh => sh
  | name :: rest, sh => lsLoop rest (sh.print (name ++ lit "\n"))

/-- Function `mkshell_ls`. -/
def mkshell_ls (env : Env) (sh : Shell) (_args : List (List Char)) :
    Except Fault (Int × Shell) :=
  match env.opendir with
  | none => .ok (1, sh.call (.opendir (lit ".")))
  | some names => .ok (1, (lsLoop names (sh.call (.opendir (lit ".")))).call .closedir)

/-- The loop of `mkshell_history`, `n` iterations from index `i`. -/
def historyLoop : Nat → Nat → Shell → Except Fault Shell
  | 0, _, sh => .ok sh
  | n + 1, i, sh =>
    match sh.history[i]? with
    | some (.str s) => historyLoop n (i + 1) (sh.print (lit (Nat.repr i) ++ lit ": " ++ s ++ lit "\n"))
    | _ => .error .badRead

/-- Function `mkshell_history`. -/
def mkshell_history (_env : Env) (sh : Shell) (_args : List (List Char)) :
    Except Fault (Int × Shell) :=
  match historyLoop sh.history_count 0 sh with
  | .error e => .error e
  | .ok sh => .ok (1, sh)

/-- The loop of `mkshell_clear_history`, `n` iterations from index `i`. -/
def clearLoop : Nat → Nat → List HSlot → Except Fault (List HSlot)
  | 0, _, h => .ok h
  | n + 1, i, h =>
    match h[i]? with
    | some (.str _) => clearLoop n (i + 1) (h.set i .freed)
    | some .null => clearLoop n (i + 1) h
    | _ => .error .badRead

/-- Function `mkshell_clear_history`. -/
def mkshell_clear_history (_env : Env) (sh : Shell) (_args : List (List Char)) :
    Except Fault (Int × Shell) :=
  match clearLoop sh.history_count 0 sh.history with
  | .error e => .error e
  | .ok h => .ok (1, { sh with history := h, history_count := 0 })

/-- The `fgets` loop of `mkshell_cat`. -/
def catLoop : List (List Char) → Shell → Shell
  | [], sh => sh
  | line :: rest, sh => catLoop rest (sh.print (cstr line 0))

/-- Function `mkshell_cat`. -/
def mkshell_cat (env : Env) (sh : Shell) (args : List (List Char)) :
    Except Fault (Int × Shell) :=
  match args[1]? with
  | none => .ok (1, sh.eprint (lit "mkshell: expected argument to \"cat\"\n"))
  | some path =>
    match env.fopen path (lit "r") with
    | none => .ok (1, perror env (sh.call (.fopen path (lit "r"))) (lit "mkshell"))
    | some lines => .ok (1, (catLoop lines (sh.call (.fopen path (lit "r")))).call .fclose)

/-- Function `mkshell_mkdir`. -/
def mkshell_mkdir (env : Env) (sh : Shell) (args : List (List Char)) :
    Except Fault (Int × Shell) :=
  match args[1]? with
  | none => .ok (1, sh.eprint (lit "mkshell: expected argument to \"mkdir\"\n"))
  | some path =>
    if env.mkdir path then .ok (1, sh.call (.mkdir path 0o777))
    else .ok (1, perror env (sh.call (.mkdir path 0o777)) (lit "mkshell"))

/-- Function `mkshell_rmdir`. -/
def mkshell_rmdir (env : Env) (sh : Shell) (args : List (List Char)) :
    Except Fault (Int × Shell) :=
  match args[1]? with
  | none => .ok (1, sh.eprint (lit "mkshell: expected argument to \"rmdir\"\n"))
  | some path =>
    if env.rmdir path then .ok (1, sh.call (.rmdir path))
    else .ok (1, perror env (sh.call (.rmdir path)) (lit "mkshell"))

/-- Function `mkshell_touch`. -/
def mkshell_touch (env : Env) (sh : Shell) (args : List (List Char)) :
    Except Fault (Int × Shell) :=
  match args[1]? with
  | none => .ok (1, sh.eprint (lit "mkshell: expected argument to \"touch\"\n"))
  | some path =>
    match env.fopen path (lit "ab+") with
    | none => .ok (1, perror env (sh.call (.fopen path (lit "ab+"))) (lit "mkshell"))
    | some _ => .ok (1, (sh.call (.fopen path (lit "ab+"))).call .fclose)

/-- Function `mkshell_rm`. -/
def mkshell_rm (env : Env) (sh : Shell) (args : List (List Char)) :
    Except Fault (Int × Shell) :=
  match args[1]? with
  | none => .ok (1, sh.eprint (lit "mkshell: expected argument to \"rm\"\n"))
  | some path =>
    if env.remove path then .ok (1, sh.call (.remove path))
    else .ok (1, perror env (sh.call (.remove path)) (lit "mkshell"))

/-- The `fread` and `fwrite` loop of `mkshell_cp`: it ends at the first read of zero bytes. -/
def cpLoop : List (List Char) → Shell → Shell
  | [], sh => sh
  | buffer :: rest, sh =>
    if buffer.length > 0 then cpLoop rest (sh.call (.fwrite buffer)) else sh

/-- Function `mkshell_cp`. -/
def mkshell_cp (env : Env) (sh : Shell) (args : List (List Char)) :
    Except Fault (Int × Shell) :=
  match args[1]?, args[2]? with
  | some srcPath, some destPath =>
    match env.fopen srcPath (lit "rb") with
    | none => .ok (1, perror env (sh.call (.fopen srcPath (lit "rb"))) (lit "mkshell"))
    | some chunks =>
      let sh1 := (sh.call (.fopen srcPath (lit "rb"))).call (.fopen destPath (lit "wb"))
      match env.fopen destPath (lit "wb") with
      | none => .ok (1, (perror env sh1 (lit "mkshell")).call .fclose)
      | some _ => .ok (1, ((cpLoop chunks sh1).call .fclose).call .fclose)
  | _, _ => .ok (1, sh.eprint (lit "mkshell: expected arguments to \"cp\"\n"))

/-- Function `mkshell_path`. -/
def mkshell_path (env : Env) (sh : Shell) (_args : List (List Char)) :
    Except Fault (Int × Shell) :=
  match getcwd env CWD_SIZE with
  | some cwd => .ok (1, sh.print (cwd ++ lit "\n"))
  | none => .ok (1, perror env sh (lit "mkshell"))

/-- Function `mkshell_exit`. -/
def mkshell_exit (_env : Env) (sh : Shell) (_args : List (List Char)) :
    Except Fault (Int × Shell) :=
  .ok (0, sh)

/-- Array `builtin_str`. -/
def builtin_str : List (List Char) :=
  [lit "cd", lit "help", lit "exit", lit "ls", lit "history",
   lit "cat", lit "mkdir", lit "rmdir", lit "touch", lit "rm",
   lit "clear_history", lit "cp", lit "path"]

/-- Function `mkshell_num_builtins`. -/
def mkshell_num_builtins : Nat := builtin_str.length

/-- The loop of `mkshell_help`, `n` iterations from index `i`. -/
def helpLoop : Nat → Nat → Shell → Shell
  | 0, _, sh => sh
  | n + 1, i, sh => helpLoop n (i + 1) (sh.print (lit "  " ++ builtin_str.getD i [] ++ lit "\n"))

/-- Function `mkshell_help`. -/
def mkshell_help (_env : Env) (sh : Shell) (_args : List (List Char)) :
    Except Fault (Int × Shell) :=
  let sh := sh.print (lit "Welcome to Mustakim Kazi's MKSHELL\n")
  let sh := sh.print (lit "Enter program names and their arguments, then press enter.\n")
  let sh := sh.print (lit "Available built-in commands:\n")
  let sh := helpLoop mkshell_num_builtins 0 sh
  .ok (1, sh.print (lit "For more information on external programs, use the 'man' command.\n"))

/-- The functions the entries of `builtin_func` point to. -/
inductive Builtin
  | mkshell_cd
  | mkshell_help
  | mkshell_exit
  | mkshell_ls
  | mkshell_history
  | mkshell_cat
  | mkshell_mkdir
  | mkshell_rmdir
  | mkshell_touch
  | mkshell_rm
  | mkshell_clear_history
  | mkshell_cp
  | mkshell_path
  deriving DecidableEq, Repr

/-- Array `builtin_func`. -/
def builtin_func : List Builtin :=
  [.mkshell_cd, .mkshell_help, .mkshell_exit, .mkshell_ls, .mkshell_history,
   .mkshell_cat, .mkshell_mkdir, .mkshell_rmdir, .mkshell_touch, .mkshell_rm,
   .mkshell_clear_history, .mkshell_cp, .mkshell_path]

/-- The name of the function an entry of `builtin_func` points to. -/
def Builtin.symbol : Builtin → List Char
  | .mkshell_cd => lit "mkshell_cd"
  | .mkshell_help => lit "mkshell_help"
  | .mkshell_exit => lit "mkshell_exit"
  | .mkshell_ls => lit "mkshell_ls"
  | .mkshell_history => lit "mkshell_history"
  | .mkshell_cat => lit "mkshell_cat"
  | .mkshell_mkdir => lit "mkshell_mkdir"
  | .mkshell_rmdir => lit "mkshell_rmdir"
  | .mkshell_touch => lit "mkshell_touch"
  | .mkshell_rm => lit "mkshell_rm"
  | .mkshell_clear_history => lit "mkshell_clear_history"
  | .mkshell_cp => lit "mkshell_cp"
  | .mkshell_path => lit "mkshell_path"

/-- The call `(*builtin_func[i])(args)` through a function pointer. -/
def Builtin.call (b : Builtin) (env : Env) (sh : Shell) (args : List (List Char)) :
    Except Fault (Int × Shell) :=
  match b with
  | .mkshell_cd => MKShell.mkshell_cd env sh args
  | .mkshell_help => MKShell.mkshell_help env sh args
  | .mkshell_exit => MKShell.mkshell_exit env sh args
  | .mkshell_ls => MKShell.mkshell_ls env sh args
  | .mkshell_history => MKShell.mkshell_history env sh args
  | .mkshell_cat => MKShell.mkshell_cat env sh args
  | .mkshell_mkdir => MKShell.mkshell_mkdir env sh args
  | .mkshell_rmdir => MKShell.mkshell_rmdir env sh args
  | .mkshell_touch => MKShell.mkshell_touch env sh args
  | .mkshell_rm => MKShell.mkshell_rm env sh args
  | .mkshell_clear_history => MKShell.mkshell_clear_history env sh args
  | .mkshell_cp => MKShell.mkshell_cp env sh args
  | .mkshell_path => MKShell.mkshell_path env sh args

/-! ## Launcher and dispatcher -/

/-- The `do ... while` loop around `waitpid` in `mkshell_launch`: `stops` calls report a
stopped child, the next one reports that it exited or was signaled. -/
def waitLoop : Nat → Shell → Shell
  | 0, sh => sh.call .waitpid
  | stops + 1, sh => waitLoop stops (sh.call .waitpid)

/-- Function `mkshell_launch`, both processes after the `fork`: the child runs `execvp` and,
when that fails, reports it and exits with `EXIT_FAILURE`; the shell waits for the child and
returns 1. -/
def mkshell_launch (env : Env) (sh : Shell) (args : List (List Char)) :
    Except Fault (Int × Shell) :=
  if env.fork then
    let sh1 := (sh.call .fork).call (.execvp (args.headD []) args)
    match env.execvp (args.headD []) with
    | none => .ok (1, waitLoop env.stops ((perror env sh1 (lit "mkshell")).call
                (.childExit EXIT_FAILURE)))
    | some _ => .ok (1, waitLoop env.stops sh1)
  else .ok (1, perror env (sh.call .fork) (lit "mkshell"))

/-- The loop of `mkshell_execute`, `n` iterations from index `i`, and the call after it. -/
def executeLoop (env : Env) (sh : Shell) (args : List (List Char)) (arg0 : List Char) :
    Nat → Nat → Except Fault (Int × Shell)
  | 0, _ => mkshell_launch env sh args
  | n + 1, i =>
    match builtin_str[i]? with
    | none => .error .outOfBounds
    | some name =>
      if strcmp arg0 name = 0 then
        match builtin_func[i]? with
        | none => .error .outOfBounds
        | some f => f.call env sh args
      else executeLoop env sh args arg0 n (i + 1)

/-- Function `mkshell_execute`. -/
def mkshell_execute (env : Env) (sh : Shell) (args : List (List Char)) :
    Except Fault (Int × Shell) :=
  match args with
  | [] => .ok (1, sh)
  | arg0 :: _ => executeLoop env sh args arg0 mkshell_num_builtins 0

/-! ## Reading a line -/

/-- The `while (1)` loop of `mkshell_read_line`; `buffer` holds the bytes stored so far, so
`position` is its length. Returns the buffer and what is left of the input. -/
def readLoop (alloc : Nat → Bool) : List Char → List Char → Nat →
    Except Fault (List Char × List Char)
  | [], buffer, bufsize =>
    if buffer.length < bufsize then .ok (buffer ++ [NUL], []) else .error .outOfBounds
  | c :: rest, buffer, bufsize =>
    if c = NL then
      if buffer.length < bufsize then .ok (buffer ++ [NUL], rest) else .error .outOfBounds
    else if buffer.length < bufsize then
      if buffer.length + 1 ≥ bufsize then
        if alloc (bufsize + MKSHELL_RL_BUFSIZE) then
          readLoop alloc rest (buffer ++ [c]) (bufsize + MKSHELL_RL_BUFSIZE)
        else .error (.exit EXIT_FAILURE)
      else readLoop alloc rest (buffer ++ [c]) bufsize
    else .error .outOfBounds

/-- The line `getline` delivers: the bytes up to and including the first newline. -/
def getlineSplit : List Char → List Char × List Char
  | [] => ([], [])
  | c :: rest =>
    if c = NL then ([c], rest)
    else ((c :: (getlineSplit rest).1), (getlineSplit rest).2)

/-- Function `mkshell_read_line`; `std_getline` tells whether `MKSHELL_USE_STD_GETLINE` is
defined. Returns the line buffer and what is left of the input. -/
def mkshell_read_line (std_getline : Bool) (alloc : Nat → Bool) (input : List Char) :
    Except Fault (List Char × List Char) :=
  if std_getline then
    match input with
    | [] => .error (.exit EXIT_SUCCESS)
    | _ :: _ =>
      if alloc ((getlineSplit input).1.length + 1) then
        .ok ((getlineSplit input).1 ++ [NUL], (getlineSplit input).2)
      else .error (.exit EXIT_FAILURE)
  else
    if alloc MKSHELL_RL_BUFSIZE then readLoop alloc input [] MKSHELL_RL_BUFSIZE
    else .error (.exit EXIT_FAILURE)

/-! ## The loop -/

/-- The history step of the loop body, `entry` being the result of `strdup(line)`. -/
def recordHistory (sh : Shell) (entry : HSlot) : Shell :=
  if sh.history_count < MKSHELL_HISTSIZE then
    { sh with history := sh.history.set sh.history_count entry,
              history_count := sh.history_count + 1 }
  else
    let freed := sh.history.set 0 HSlot.freed
    let moved := (freed.drop 1).take (MKSHELL_HISTSIZE - 1) ++ freed.drop (MKSHELL_HISTSIZE - 1)
    { sh with history := moved.set (MKSHELL_HISTSIZE - 1) entry }

/-- The prompt left in `shell_prompt` by `snprintf`. -/
def shellPrompt (user cwd : List Char) : List Char :=
  snprintf SHELL_PROMPT_SIZE (user ++ lit "@" ++ cwd ++ lit " > ")

/-- How a run of `mkshell_loop` stands after some cycles: it returned because a command gave
status 0, it returned because `getcwd` failed, or it is still running. -/
inductive LoopEnd
  | returned
  | cwdError
  | running
  deriving DecidableEq, Repr

/-- The start of the loop body: `getcwd`, `snprintf` and the `printf` of the prompt. The flag
is `false` when `getcwd` failed and the function returns. -/
def promptStep (env : Env) (sh : Shell) : Except Fault (Bool × Shell) :=
  match getcwd env CWD_SIZE with
  | none => .ok (false, perror env sh (lit "getcwd() error"))
  | some cwd =>
    match env.user with
    | none => .error .badRead
    | some user => .ok (true, sh.print (shellPrompt user cwd))

/-- Body of the `do ... while` loop of `mkshell_loop`; the status is `none` when the body
returns from the function because `getcwd` failed. -/
def loopBody (std_getline : Bool) (env : Env) (sh : Shell) :
    Except Fault (Option Int × Shell) :=
  match promptStep env sh with
  | .error e => .error e
  | .ok (false, sh1) => .ok (none, sh1)
  | .ok (true, sh1) =>
    match mkshell_read_line std_getline env.alloc sh1.stdin with
    | .error e => .error e
    | .ok (line, rest) =>
      match mkshell_split_line env.alloc line with
      | .error e => .error e
      | .ok st =>
        match argvStrings st with
        | none => .error .badRead
        | some args =>
          let sh2 := recordHistory { sh1 with stdin := rest } (strdup env.alloc st.line)
          match mkshell_execute env sh2 args with
          | .error e => .error e
          | .ok (status, sh3) => .ok (some status, sh3)

/-- Function `mkshell_loop`, run for at most `fuel` cycles; `envs i` is the environment of
cycle `i`. -/
def mkshell_loop (std_getline : Bool) : Nat → (Nat → Env) → Shell →
    Except Fault (LoopEnd × Shell)
  | 0, _, sh => .ok (.running, sh)
  | fuel + 1, envs, sh =>
    match loopBody std_getline (envs 0) sh with
    | .error e => .error e
    | .ok (none, sh1) => .ok (.cwdError, sh1)
    | .ok (some status, sh1) =>
      if status ≠ 0 then mkshell_loop std_getline fuel (fun i => envs (i + 1)) sh1
      else .ok (.returned, sh1)

/-! ## Specification and proof vocabulary -/

deriving instance DecidableEq for Except

/-- Spec: the maximal non-empty runs of non-delimiter bytes of a line, left to right. -/
def delimRuns (s : List Char) : List (List Char) :=
  (s.splitOnP (fun c => MKSHELL_TOK_DELIM.elem c)).filter (fun t => !t.isEmpty)

/-- Spec: a line cut after its first token, the delimiters before that token kept. -/
def firstTokenCut (s : List Char) : List Char :=
  s.takeWhile (fun c => MKSHELL_TOK_DELIM.elem c) ++
    (s.dropWhile (fun c => MKSHELL_TOK_DELIM.elem c)).takeWhile
      (fun c => !MKSHELL_TOK_DELIM.elem c)

/-- A byte that `strspn` over the delimiter set steps over. -/
def isSkip (c : Char) : Bool := c != NUL && MKSHELL_TOK_DELIM.elem c

/-- A byte that `strcspn` over the delimiter set steps over. -/
def isTokChar (c : Char) : Bool := c != NUL && !MKSHELL_TOK_DELIM.elem c

/-- The record of the store at position `p`: the position, `bufsize` at that moment and the
number of slots then allocated. -/
def storeAt (p : Nat) : Nat × Nat × Nat :=
  (p, MKSHELL_TOK_BUFSIZE * (p / MKSHELL_TOK_BUFSIZE + 1),
    MKSHELL_TOK_BUFSIZE * (p / MKSHELL_TOK_BUFSIZE + 1))

/-- Invariant of the token array at the head of the loop, `ptrs` being the pointers stored
so far. -/
def TokInv (st : SplitState) (ptrs : List Nat) : Prop :=
  st.tokens = ptrs.map Slot.ptr ++ List.replicate (st.bufsize - ptrs.length) Slot.uninit ∧
  st.position = ptrs.length ∧
  st.bufsize = MKSHELL_TOK_BUFSIZE * (st.position / MKSHELL_TOK_BUFSIZE + 1) ∧
  st.stores = (List.range ptrs.length).map storeAt

/-- Body of the loop up to the next `strtok` call: the store, the increment and the resize. -/
def storeAndGrow (alloc : Nat → Bool) (st : SplitState) (token : Nat) :
    Except Fault SplitState :=
  match storeToken st (.ptr token) with
  | .error e => .error e
  | .ok st1 => growTokens alloc { st1 with position := st1.position + 1 }

/-- A `strtok` call followed by the loop. -/
def splitFrom (alloc : Nat → Bool) (fuel : Nat) (st : SplitState) (arg : Option Nat) :
    Except Fault SplitState :=
  let r := strtok st.line st.save arg MKSHELL_TOK_DELIM
  splitLoop alloc fuel { st with line := r.1, save := r.2.1 } r.2.2

/-- What a run of the loop from a given point delivers. -/
def SplitOk (alloc : Nat → Bool) (r : Except Fault SplitState) (pre s : List Char)
    (ptrs : List Nat) : Prop :=
  (∃ st newptrs tail, r = .ok st ∧ st.line = pre ++ tail ∧ TokInv st (ptrs ++ newptrs) ∧
      newptrs.map (cstr st.line) = delimRuns s ∧ cstr tail 0 = firstTokenCut s) ∨
  (r = .error (.exit EXIT_FAILURE) ∧ ∃ n, alloc n = false)

/-- Local state of `mkshell_split_line` before the first `strtok` call. -/
def splitStart (buf : List Char) : SplitState where
  line := buf
  save := 0
  tokens := List.replicate MKSHELL_TOK_BUFSIZE Slot.uninit
  position := 0
  bufsize := MKSHELL_TOK_BUFSIZE
  stores := []

/-- The last `n` elements of a list. -/
def lastN {α : Type} (n : Nat) (l : List α) : List α := l.drop (l.length - n)

/-- The history step of the loop run for each of a sequence of line buffers in turn. -/
def recordAll (alloc : Nat → Bool) (sh : Shell) (bufs : List (List Char)) : Shell :=
  bufs.foldl (fun sh b => recordHistory sh (strdup alloc b)) sh

/-- The ring holds exactly the entries `es`, oldest first. -/
def Ring (sh : Shell) (es : List HSlot) : Prop :=
  sh.history.length = MKSHELL_HISTSIZE ∧ sh.history_count = es.length ∧
  es.length ≤ MKSHELL_HISTSIZE ∧ sh.history.take es.length = es

/-- Every slot below `history_count` points to a live string. -/
def HistOk (sh : Shell) : Prop :=
  ∃ (ss : List (List Char)) (post : List HSlot),
    sh.history = ss.map HSlot.str ++ post ∧ sh.history_count = ss.length

/-- The calls added to the record of calls hold no `fork`. -/
def NoFork (before after : Shell) : Prop :=
  ∃ calls, after.sys = before.sys ++ calls ∧ Sys.fork ∉ calls

/-- What a call of a built-in delivers: status `v`, and no `fork` among its calls. -/
def Delivers (r : Except Fault (Int × Shell)) (sh : Shell) (v : Int) : Prop :=
  ∃ sh1, r = .ok (v, sh1) ∧ NoFork sh sh1

/-- A sample environment: user `u`, working directory `/h`, every call succeeds except
`execvp`, which finds no program. -/
def sampleEnv : Env where
  user := some (lit "u")
  cwd := some (lit "/h")
  alloc := fun _ => true
  strerror := lit "No such file or directory"
  chdir := fun _ => true
  opendir := some []
  fopen := fun _ _ => some []
  mkdir := fun _ => true
  rmdir := fun _ => true
  remove := fun _ => true
  fork := true
  execvp := fun _ => none
  stops := 0

/-- Spec: the lines `"<i>: <text>\n"` for the given texts, numbered from `i`. -/
def historyLinesFrom : Nat → List (List Char) → List (List Char)
  | _, [] => []
  | i, s :: ss => (lit (Nat.repr i) ++ lit ": " ++ s ++ lit "\n") :: historyLinesFrom (i + 1) ss

/-- What `free` leaves of a slot. -/
def freedSlot : HSlot → HSlot
  | .str _ => .freed
  | e => e

/-- An environment in which a cycle of the loop gets as far as the dispatcher: `USER` is set,
`getcwd` succeeds and no allocation fails. -/
def EnvOk (env : Env) : Prop :=
  (∀ n, env.alloc n = true) ∧ ∃ u c, env.user = some u ∧ getcwd env CWD_SIZE = some c

/-- The prompt of a cycle in the given environment. -/
def promptOf (env : Env) : List Char :=
  match env.user, getcwd env CWD_SIZE with
  | some u, some c => shellPrompt u c
  | _, _ => []

/-- Standard input holding the given lines, each ended by a newline, and then `rest`. -/
def feed : List (List Char) → List Char → List Char
  | [], rest => rest
  | l :: ls, rest => l ++ NL :: feed ls rest

/-- The line does not name a built-in: it has no token, or its first token is not
registered. -/
def externalLine (l : List Char) : Bool :=
  match (delimRuns (cstr l 0)).head? with
  | none => true
  | some arg0 => !builtin_str.elem arg0

/-- The twelve lines `cmd1` .. `cmd12`. -/
def twelveCommands : List (List Char) :=
  [lit "cmd1", lit "cmd2", lit "cmd3", lit "cmd4", lit "cmd5", lit "cmd6",
   lit "cmd7", lit "cmd8", lit "cmd9", lit "cmd10", lit "cmd11", lit "cmd12"]

/-- Standard input holding the lines `cmd1` .. `cmd12` and then the line `history`. -/
def twelveThenHistory : List Char :=
  lit "cmd1\ncmd2\ncmd3\ncmd4\ncmd5\ncmd6\ncmd7\ncmd8\ncmd9\ncmd10\ncmd11\ncmd12\nhistory\n"

/-- An environment whose working directory has a path of 101 bytes. -/
def longCwdEnv : Env :=
  { sampleEnv with cwd := some (lit "/" ++ List.replicate 100 (Char.ofNat 97)) }

/-! ## Theorems -/

/-! ### Lists and buffers -/

theorem takeWhile_run {α : Type} (p : α → Bool) (a tl : List α)
    (ha : ∀ c ∈ a, p c = true) (htl : ∀ c, tl.head? = some c → p c = false) :
    (a ++ tl).takeWhile p = a := by
  induction a with
  | nil =>
    cases tl with
    | nil => rfl
    | cons c t => simp [List.takeWhile, htl c rfl]
  | cons x a ih =>
    have hx : p x = true := ha x (by simp)
    simp only [List.cons_append, List.takeWhile_cons, hx, if_true]
    rw [ih (fun c hc => ha c (by simp [hc]))]

theorem set_at_length {α : Type} (a b : List α) (d x : α) :
    (a ++ d :: b).set a.length x = a ++ x :: b := by
  induction a with
  | nil => rfl
  | cons y a ih => simp [ih]

theorem peek_at_length (a b : List Char) : peek (a ++ b) a.length = peek b 0 := by
  induction a with
  | nil => rfl
  | cons y a ih => simpa [peek] using ih

theorem peek_zero_of_head (rest : List Char) (h : ∀ c, rest.head? = some c → c = NUL) :
    peek rest 0 = NUL := by
  cases rest with
  | nil => rfl
  | cons c t => simpa [peek] using h c rfl

theorem cstr_at_length (a tok rest : List Char) (htok : ∀ c ∈ tok, c ≠ NUL)
    (hrest : ∀ c, rest.head? = some c → c = NUL) :
    cstr (a ++ tok ++ rest) a.length = tok := by
  unfold cstr
  rw [List.append_assoc, List.drop_left]
  apply takeWhile_run
  · intro c hc; simpa using htok c hc
  · intro c hc; simpa using hrest c hc

/-! ### The string functions -/

theorem nul_not_delim : MKSHELL_TOK_DELIM.elem NUL = false := by decide

theorem isSkip_iff (c : Char) : isSkip c = true ↔ MKSHELL_TOK_DELIM.elem c = true := by
  unfold isSkip
  constructor
  · intro h; simp at h; simpa using h.2
  · intro h
    have hne : c ≠ NUL := by
      intro hc; rw [hc, nul_not_delim] at h; exact Bool.noConfusion h
    simp at h
    simp [hne, h]

theorem strspn_eq (pre ds tl : List Char) (hds : ∀ c ∈ ds, isSkip c = true)
    (htl : ∀ c, tl.head? = some c → isSkip c = false) :
    strspn (pre ++ ds ++ tl) pre.length MKSHELL_TOK_DELIM = ds.length := by
  unfold strspn
  rw [List.append_assoc, List.drop_left]
  have := takeWhile_run isSkip ds tl hds htl
  unfold isSkip at this
  rw [this]

theorem strcspn_eq (pre tok tl : List Char) (htok : ∀ c ∈ tok, isTokChar c = true)
    (htl : ∀ c, tl.head? = some c → isTokChar c = false) :
    strcspn (pre ++ tok ++ tl) pre.length MKSHELL_TOK_DELIM = tok.length := by
  unfold strcspn
  rw [List.append_assoc, List.drop_left]
  have := takeWhile_run isTokChar tok tl htok htl
  unfold isTokChar at this
  rw [this]

/-- No token is left: `strtok` returns `NULL` and leaves the buffer alone. -/
theorem strtok_none (pre ds rest : List Char) (save : Nat) (arg : Option Nat)
    (harg : arg.getD save = pre.length)
    (hds : ∀ c ∈ ds, isSkip c = true)
    (hrest : ∀ c, rest.head? = some c → c = NUL) :
    strtok (pre ++ ds ++ rest) save arg MKSHELL_TOK_DELIM
      = (pre ++ ds ++ rest, (pre ++ ds).length, none) := by
  have hsp : strspn (pre ++ ds ++ rest) pre.length MKSHELL_TOK_DELIM = ds.length :=
    strspn_eq pre ds rest hds (by
      intro c hc; rw [hrest c hc]; rfl)
  have hpk : peek (pre ++ ds ++ rest) (pre.length + ds.length) = NUL := by
    rw [← List.length_append, peek_at_length]
    exact peek_zero_of_head rest hrest
  unfold strtok
  simp only [harg, hsp, hpk, if_true, List.length_append]

/-- The last token of the string: it ends at the terminator, nothing is written. -/
theorem strtok_last (pre ds tok rest : List Char) (save : Nat) (arg : Option Nat)
    (harg : arg.getD save = pre.length)
    (hds : ∀ c ∈ ds, isSkip c = true)
    (htok : ∀ c ∈ tok, isTokChar c = true) (hne : tok ≠ [])
    (hrest : ∀ c, rest.head? = some c → c = NUL) :
    strtok (pre ++ ds ++ tok ++ rest) save arg MKSHELL_TOK_DELIM
      = (pre ++ ds ++ tok ++ rest, (pre ++ ds ++ tok).length, some (pre ++ ds).length) := by
  obtain ⟨t, ts, rfl⟩ := List.exists_cons_of_ne_nil hne
  have ht : isTokChar t = true := htok t (by simp)
  have htn : t ≠ NUL := by
    intro h; rw [h] at ht; exact Bool.noConfusion ht
  have hsp : strspn (pre ++ ds ++ (t :: ts) ++ rest) pre.length MKSHELL_TOK_DELIM
      = ds.length := by
    have := strspn_eq pre ds ((t :: ts) ++ rest) hds (by
      intro c hc
      simp at hc
      subst hc
      unfold isSkip; unfold isTokChar at ht
      simp at ht ⊢
      intro _; exact ht.2)
    simpa [List.append_assoc] using this
  have hpk1 : peek (pre ++ ds ++ (t :: ts) ++ rest) (pre.length + ds.length) = t := by
    rw [← List.length_append, List.append_assoc (pre ++ ds), peek_at_length]
    rfl
  have hcs : strcspn (pre ++ ds ++ (t :: ts) ++ rest) (pre.length + ds.length)
      MKSHELL_TOK_DELIM = (t :: ts).length := by
    rw [← List.length_append]
    exact strcspn_eq (pre ++ ds) (t :: ts) rest htok (by
      intro c hc; rw [hrest c hc]; rfl)
  have hpk2 : peek (pre ++ ds ++ (t :: ts) ++ rest)
      (pre.length + ds.length + (t :: ts).length) = NUL := by
    rw [← List.length_append, ← List.length_append, peek_at_length]
    exact peek_zero_of_head rest hrest
  unfold strtok
  simp only [harg, hsp, hpk1, htn, if_false, hcs, hpk2, if_true, List.length_append]

/-- A token followed by a delimiter: the delimiter is overwritten with NUL. -/
theorem strtok_mid (pre ds tok : List Char) (d : Char) (tl : List Char)
    (save : Nat) (arg : Option Nat)
    (harg : arg.getD save = pre.length)
    (hds : ∀ c ∈ ds, isSkip c = true)
    (htok : ∀ c ∈ tok, isTokChar c = true) (hne : tok ≠ [])
    (hd : isSkip d = true) :
    strtok (pre ++ ds ++ tok ++ d :: tl) save arg MKSHELL_TOK_DELIM
      = (pre ++ ds ++ tok ++ NUL :: tl, (pre ++ ds ++ tok).length + 1,
          some (pre ++ ds).length) := by
  obtain ⟨t, ts, rfl⟩ := List.exists_cons_of_ne_nil hne
  have ht : isTokChar t = true := htok t (by simp)
  have htn : t ≠ NUL := by
    intro h; rw [h] at ht; exact Bool.noConfusion ht
  have hdn : d ≠ NUL := by
    intro h; rw [h] at hd; exact Bool.noConfusion hd
  have hsp : strspn (pre ++ ds ++ (t :: ts) ++ d :: tl) pre.length MKSHELL_TOK_DELIM
      = ds.length := by
    have := strspn_eq pre ds ((t :: ts) ++ d :: tl) hds (by
      intro c hc
      simp at hc
      subst hc
      unfold isSkip; unfold isTokChar at ht
      simp at ht ⊢
      intro _; exact ht.2)
    simpa [List.append_assoc] using this
  have hpk1 : peek (pre ++ ds ++ (t :: ts) ++ d :: tl) (pre.length + ds.length) = t := by
    rw [← List.length_append, List.append_assoc (pre ++ ds), peek_at_length]
    rfl
  have hcs : strcspn (pre ++ ds ++ (t :: ts) ++ d :: tl) (pre.length + ds.length)
      MKSHELL_TOK_DELIM = (t :: ts).length := by
    rw [← List.length_append]
    exact strcspn_eq (pre ++ ds) (t :: ts) (d :: tl) htok (by
      intro c hc
      simp at hc
      subst hc
      unfold isTokChar; unfold isSkip at hd
      simp at hd ⊢
      intro _; exact hd.2)
  have hpk2 : peek (pre ++ ds ++ (t :: ts) ++ d :: tl)
      (pre.length + ds.length + (t :: ts).length) = d := by
    rw [← List.length_append, ← List.length_append, peek_at_length]
    rfl
  have hset : (pre ++ ds ++ (t :: ts) ++ d :: tl).set
      (pre.length + ds.length + (t :: ts).length) NUL = pre ++ ds ++ (t :: ts) ++ NUL :: tl := by
    rw [← List.length_append, ← List.length_append]
    exact set_at_length _ _ _ _
  unfold strtok
  simp only [harg, hsp, hpk1, htn, if_false, hcs, hpk2, hdn, hset, List.length_append]

/-! ### Runs of a line -/

theorem span_decomp {α : Type} (p : α → Bool) (l : List α) :
    ∃ a b, l = a ++ b ∧ (∀ c ∈ a, p c = true) ∧ (∀ c, b.head? = some c → p c = false) := by
  induction l with
  | nil => exact ⟨[], [], rfl, by simp, by simp⟩
  | cons x l ih =>
    obtain ⟨a, b, hl, ha, hb⟩ := ih
    cases hx : p x with
    | true =>
      refine ⟨x :: a, b, by simp [hl], ?_, hb⟩
      intro c hc
      rcases List.mem_cons.mp hc with h | h
      · rw [h]; exact hx
      · exact ha c h
    | false =>
      refine ⟨[], x :: l, rfl, by simp, ?_⟩
      intro c hc
      simp at hc
      rw [← hc]; exact hx

/-- Shape of a NUL-free string as seen by `strtok`: leading delimiters, then nothing, or a
token that ends the string or is followed by a delimiter. -/
theorem line_shape (s : List Char) (hs : ∀ c ∈ s, c ≠ NUL) :
    ∃ ds r, s = ds ++ r ∧ (∀ c ∈ ds, isSkip c = true) ∧
      (r = [] ∨ ∃ tok s2, r = tok ++ s2 ∧ tok ≠ [] ∧ (∀ c ∈ tok, isTokChar c = true) ∧
        (s2 = [] ∨ ∃ d tl, s2 = d :: tl ∧ isSkip d = true)) := by
  obtain ⟨ds, r, hsr, hds, hr⟩ := span_decomp isSkip s
  refine ⟨ds, r, hsr, hds, ?_⟩
  cases r with
  | nil => exact Or.inl rfl
  | cons x r0 =>
    right
    have hxs : isSkip x = false := hr x rfl
    have hxn : x ≠ NUL := hs x (by rw [hsr]; simp)
    have hxt : isTokChar x = true := by
      unfold isSkip at hxs; unfold isTokChar
      simp [hxn] at hxs ⊢
      exact hxs
    obtain ⟨tok, s2, hts, htok, hs2⟩ := span_decomp isTokChar (x :: r0)
    refine ⟨tok, s2, hts, ?_, htok, ?_⟩
    · intro h
      rw [h] at hts
      simp at hts
      have := hs2 x (by rw [← hts]; rfl)
      rw [hxt] at this
      exact Bool.noConfusion this
    · cases s2 with
      | nil => exact Or.inl rfl
      | cons d tl =>
        right
        refine ⟨d, tl, rfl, ?_⟩
        have hdt : isTokChar d = false := hs2 d rfl
        have hdn : d ≠ NUL := hs d (by rw [hsr, hts]; simp)
        unfold isTokChar at hdt; unfold isSkip
        simp [hdn] at hdt ⊢
        exact hdt

theorem delimRuns_nil : delimRuns [] = [] := rfl

theorem delimRuns_skip (ds s : List Char) (hds : ∀ c ∈ ds, isSkip c = true) :
    delimRuns (ds ++ s) = delimRuns s := by
  induction ds with
  | nil => rfl
  | cons d ds ih =>
    have hd : MKSHELL_TOK_DELIM.elem d = true := (isSkip_iff d).mp (hds d (by simp))
    have := ih (fun c hc => hds c (by simp [hc]))
    unfold delimRuns at this ⊢
    rw [List.cons_append, List.splitOnP_cons]
    simp only [hd, if_true]
    rw [List.filter_cons]
    simpa using this

theorem tokChar_not_delim (c : Char) (h : isTokChar c = true) :
    ¬ (MKSHELL_TOK_DELIM.elem c = true) := by
  unfold isTokChar at h
  simp at h
  simpa using h.2

theorem delimRuns_last (tok : List Char) (hne : tok ≠ [])
    (htok : ∀ c ∈ tok, isTokChar c = true) : delimRuns tok = [tok] := by
  unfold delimRuns
  rw [List.splitOnP_eq_single (fun c => MKSHELL_TOK_DELIM.elem c) tok
    (fun c hc => tokChar_not_delim c (htok c hc))]
  cases tok with
  | nil => exact absurd rfl hne
  | cons t ts => rfl

theorem delimRuns_mid (tok : List Char) (d : Char) (tl : List Char) (hne : tok ≠ [])
    (htok : ∀ c ∈ tok, isTokChar c = true) (hd : isSkip d = true) :
    delimRuns (tok ++ d :: tl) = tok :: delimRuns tl := by
  unfold delimRuns
  rw [List.splitOnP_first (fun c => MKSHELL_TOK_DELIM.elem c) tok
    (fun c hc => tokChar_not_delim c (htok c hc)) d ((isSkip_iff d).mp hd) tl]
  cases tok with
  | nil => exact absurd rfl hne
  | cons t ts => rfl

theorem delimRuns_nonempty (s : List Char) : ∀ t ∈ delimRuns s, t ≠ [] := by
  intro t ht
  unfold delimRuns at ht
  have := (List.mem_filter.mp ht).2
  intro h; rw [h] at this; exact Bool.noConfusion this

theorem dropWhile_run {α : Type} (p : α → Bool) (a tl : List α)
    (ha : ∀ c ∈ a, p c = true) (htl : ∀ c, tl.head? = some c → p c = false) :
    (a ++ tl).dropWhile p = tl := by
  induction a with
  | nil =>
    cases tl with
    | nil => rfl
    | cons c t => simp [List.dropWhile, htl c rfl]
  | cons x a ih =>
    have hx : p x = true := ha x (by simp)
    simp only [List.cons_append, List.dropWhile_cons, hx, if_true]
    exact ih (fun c hc => ha c (by simp [hc]))

theorem cstr_zero (tok rest : List Char) (htok : ∀ c ∈ tok, c ≠ NUL)
    (hrest : ∀ c, rest.head? = some c → c = NUL) : cstr (tok ++ rest) 0 = tok := by
  have := cstr_at_length [] tok rest htok hrest
  simpa using this

theorem firstTokenCut_shape (ds tok s2 : List Char) (hds : ∀ c ∈ ds, isSkip c = true)
    (htok : ∀ c ∈ tok, isTokChar c = true)
    (hs2 : s2 = [] ∨ ∃ d tl, s2 = d :: tl ∧ isSkip d = true)
    (hne : tok ≠ [] ∨ s2 = []) :
    firstTokenCut (ds ++ tok ++ s2) = ds ++ tok := by
  have hds2 : ∀ c ∈ ds, (fun c => MKSHELL_TOK_DELIM.elem c) c = true :=
    fun c hc => (isSkip_iff c).mp (hds c hc)
  have htok2 : ∀ c ∈ tok, (fun c => !MKSHELL_TOK_DELIM.elem c) c = true := by
    intro c hc
    have := tokChar_not_delim c (htok c hc)
    simpa using this
  have hs2h : ∀ c, s2.head? = some c → (fun c => !MKSHELL_TOK_DELIM.elem c) c = false := by
    intro c hc
    rcases hs2 with h | ⟨d, tl, h, hd⟩
    · rw [h] at hc; simp at hc
    · rw [h] at hc; simp at hc; subst hc
      have := (isSkip_iff d).mp hd
      simpa using this
  have hhead : ∀ c, (tok ++ s2).head? = some c → (fun c => MKSHELL_TOK_DELIM.elem c) c = false := by
    intro c hc
    cases tok with
    | nil =>
      rcases hne with h | h
      · exact absurd rfl h
      · rw [h] at hc; simp at hc
    | cons t ts =>
      simp at hc; subst hc
      have := htok2 t (by simp)
      simpa using this
  unfold firstTokenCut
  rw [List.append_assoc, takeWhile_run _ ds (tok ++ s2) hds2 hhead,
    dropWhile_run _ ds (tok ++ s2) hds2 hhead, takeWhile_run _ tok s2 htok2 hs2h]

/-! ### The token array -/

theorem TokInv.position_lt {st : SplitState} {ptrs : List Nat} (h : TokInv st ptrs) :
    st.position < st.bufsize := by
  obtain ⟨_, _, h3, _⟩ := h
  rw [h3]; simp only [MKSHELL_TOK_BUFSIZE]; omega

theorem TokInv.length_tokens {st : SplitState} {ptrs : List Nat} (h : TokInv st ptrs) :
    st.tokens.length = st.bufsize := by
  have h3 := h.position_lt
  obtain ⟨h1, h2, _, _⟩ := h
  rw [h1]
  simp
  omega

theorem set_fill (a : List Slot) (n : Nat) (v : Slot) :
    (a ++ List.replicate (n + 1) Slot.uninit).set a.length v
      = a ++ v :: List.replicate n Slot.uninit := by
  rw [List.replicate_succ]
  exact set_at_length a _ _ v

/-- A store at the head of the loop is inside the array and is recorded as `storeAt`. -/
theorem storeToken_inv (st : SplitState) (ptrs : List Nat) (v : Slot) (h : TokInv st ptrs) :
    ∃ k, st.bufsize - ptrs.length = k + 1 ∧
      storeToken st v = .ok { st with
        tokens := ptrs.map Slot.ptr ++ v :: List.replicate k Slot.uninit,
        stores := (List.range (ptrs.length + 1)).map storeAt } := by
  have hlen := h.length_tokens
  have h3 := h.position_lt
  obtain ⟨h1, h2, hb, h5⟩ := h
  obtain ⟨k, hk⟩ : ∃ k, st.bufsize - ptrs.length = k + 1 := ⟨st.bufsize - ptrs.length - 1, by omega⟩
  refine ⟨k, hk, ?_⟩
  have hset : st.tokens.set st.position v
      = ptrs.map Slot.ptr ++ v :: List.replicate k Slot.uninit := by
    rw [h1, hk, h2]
    have := set_fill (ptrs.map Slot.ptr) k v
    rw [List.length_map] at this
    exact this
  have hrec : st.stores ++ [(st.position, st.bufsize, st.tokens.length)]
      = (List.range (ptrs.length + 1)).map storeAt := by
    rw [List.range_succ, List.map_append, ← h5, hlen, ← h2]
    simp only [List.map_cons, List.map_nil, storeAt]
    rw [← hb]
  unfold storeToken
  rw [if_pos (by omega), hset, hrec]

theorem storeAndGrow_inv (alloc : Nat → Bool) (st : SplitState) (ptrs : List Nat) (t : Nat)
    (h : TokInv st ptrs) :
    (∃ st2, storeAndGrow alloc st t = .ok st2 ∧ TokInv st2 (ptrs ++ [t]) ∧
        st2.line = st.line ∧ st2.save = st.save) ∨
    (storeAndGrow alloc st t = .error (.exit EXIT_FAILURE) ∧ ∃ n, alloc n = false) := by
  have h3 := h.position_lt
  obtain ⟨k, hk, hstore⟩ := storeToken_inv st ptrs (.ptr t) h
  obtain ⟨h1, h2, hb, h5⟩ := h
  have hsg : storeAndGrow alloc st t = growTokens alloc { st with
      tokens := ptrs.map Slot.ptr ++ Slot.ptr t :: List.replicate k Slot.uninit,
      stores := (List.range (ptrs.length + 1)).map storeAt,
      position := st.position + 1 } := by
    unfold storeAndGrow
    rw [hstore]
  have hrange : (List.range (ptrs.length + 1)).map storeAt
      = (List.range (ptrs ++ [t]).length).map storeAt := by simp
  rw [hsg]
  unfold growTokens
  by_cases hfull : st.position + 1 ≥ st.bufsize
  · rw [if_pos hfull]
    cases ha : alloc (st.bufsize + MKSHELL_TOK_BUFSIZE) with
    | false => exact Or.inr ⟨by simp [ha], _, ha⟩
    | true =>
      left
      have hk0 : k = 0 := by omega
      refine ⟨{ st with
        tokens := reallocSlots (ptrs.map Slot.ptr ++ Slot.ptr t :: List.replicate k Slot.uninit)
          (st.bufsize + MKSHELL_TOK_BUFSIZE),
        stores := (List.range (ptrs.length + 1)).map storeAt,
        position := st.position + 1,
        bufsize := st.bufsize + MKSHELL_TOK_BUFSIZE }, by simp [ha], ?_, rfl, rfl⟩
      refine ⟨?_, ?_, ?_, hrange⟩
      · show reallocSlots _ _ = _
        simp only [reallocSlots, hk0, List.replicate_zero]
        rw [List.take_of_length_le (by simp; omega)]
        simp [MKSHELL_TOK_BUFSIZE]
      · show st.position + 1 = _
        simp [h2]
      · show st.bufsize + MKSHELL_TOK_BUFSIZE = _
        simp only [MKSHELL_TOK_BUFSIZE] at hb hfull ⊢
        omega
  · rw [if_neg hfull]
    left
    refine ⟨_, rfl, ?_, rfl, rfl⟩
    refine ⟨?_, ?_, ?_, hrange⟩
    · show _ ++ _ :: List.replicate k Slot.uninit
        = _ ++ List.replicate (st.bufsize - _) Slot.uninit
      have : st.bufsize - (ptrs ++ [t]).length = k := by simp; omega
      rw [this]
      simp
    · show st.position + 1 = _
      simp [h2]
    · show st.bufsize = MKSHELL_TOK_BUFSIZE * ((st.position + 1) / MKSHELL_TOK_BUFSIZE + 1)
      simp only [MKSHELL_TOK_BUFSIZE] at hb hfull ⊢
      omega

/-! ### The tokenizer loop -/

theorem splitLoop_some (alloc : Nat → Bool) (fuel : Nat) (st : SplitState) (t : Nat) :
    splitLoop alloc (fuel + 1) st (some t) =
      match storeAndGrow alloc st t with
      | .error e => .error e
      | .ok st2 => splitFrom alloc fuel st2 none := by
  unfold storeAndGrow splitFrom
  rw [splitLoop]
  cases storeToken st (.ptr t) with
  | error e => rfl
  | ok st1 => rfl

theorem splitFrom_spec (alloc : Nat → Bool) :
    ∀ (n : Nat) (s : List Char), s.length ≤ n →
    ∀ (pre rest : List Char) (st : SplitState) (ptrs : List Nat) (fuel : Nat) (arg : Option Nat),
      (∀ c ∈ s, c ≠ NUL) → (∀ c, rest.head? = some c → c = NUL) →
      st.line = pre ++ s ++ rest → arg.getD st.save = pre.length →
      TokInv st ptrs → s.length ≤ fuel →
      SplitOk alloc (splitFrom alloc fuel st arg) pre s ptrs := by
  intro n
  induction n with
  | zero =>
    intro s hn pre rest st ptrs fuel arg hs hrest hline harg hinv hfuel
    have hs0 : s = [] := List.length_eq_zero.mp (by omega)
    subst hs0
    have hst := strtok_none pre [] rest st.save arg harg (by simp) hrest
    simp only [List.append_nil] at hst hline
    unfold splitFrom
    rw [hline, hst]
    left
    refine ⟨_, [], rest, by rw [splitLoop], rfl, by simpa using hinv, rfl, ?_⟩
    exact cstr_zero [] rest (by simp) hrest
  | succ n ih =>
    intro s hn pre rest st ptrs fuel arg hs hrest hline harg hinv hfuel
    obtain ⟨ds, r, hsr, hds, hr⟩ := line_shape s hs
    rcases hr with hr | ⟨tok, s2, hr, hne, htok, hs2⟩
    · -- only delimiters are left
      subst hr
      simp only [List.append_nil] at hsr
      subst hsr
      have hst := strtok_none pre s rest st.save arg harg hds hrest
      unfold splitFrom
      rw [hline, hst]
      left
      refine ⟨_, [], s ++ rest, by rw [splitLoop], by simp, by simpa using hinv, ?_, ?_⟩
      · have := delimRuns_skip s [] hds
        simp only [List.append_nil] at this
        rw [this]; rfl
      · rw [cstr_zero s rest hs hrest]
        have := firstTokenCut_shape s [] [] hds (by simp) (Or.inl rfl) (Or.inr rfl)
        simpa using this.symm
    · have htoklen : 0 < tok.length := List.length_pos.mpr hne
      have hslen : s.length = ds.length + (tok.length + s2.length) := by
        rw [hsr, hr]; simp
      obtain ⟨f, hf⟩ : ∃ f, fuel = f + 1 := ⟨fuel - 1, by omega⟩
      subst hf
      have htokn : ∀ c ∈ tok, c ≠ NUL := by
        intro c hc; exact hs c (by rw [hsr, hr]; simp [hc])
      rcases hs2 with hs2 | ⟨d, tl, hs2, hd⟩
      · -- the token ends the string
        subst hs2
        subst hr
        subst hsr
        simp only [List.append_nil] at hs hline hfuel hn hslen
        have hbuf : st.line = pre ++ ds ++ tok ++ rest := by
          rw [hline]; simp
        have hst := strtok_last pre ds tok rest st.save arg harg hds htok hne hrest
        unfold splitFrom
        rw [hbuf, hst]
        simp only
        rw [splitLoop_some]
        rcases storeAndGrow_inv alloc
          { st with line := pre ++ ds ++ tok ++ rest, save := (pre ++ ds ++ tok).length }
          ptrs (pre ++ ds).length hinv with ⟨st2, hsg, hinv2, hl2, hsv2⟩ | ⟨hsg, hal⟩
        · rw [hsg]
          simp only at hl2 hsv2 ⊢
          have hst2 := strtok_none (pre ++ ds ++ tok) [] rest st2.save none
            (by simpa using hsv2) (by simp) hrest
          simp only [List.append_nil] at hst2
          unfold splitFrom
          rw [hl2, hst2]
          left
          refine ⟨{ st2 with line := pre ++ ds ++ tok ++ rest,
                              save := (pre ++ ds ++ tok).length },
            [(pre ++ ds).length], ds ++ tok ++ rest, by rw [splitLoop], by simp,
            hinv2, ?_, ?_⟩
          · simp only [List.append_nil]
            rw [delimRuns_skip ds tok hds, delimRuns_last tok hne htok]
            simp only [List.map_cons, List.map_nil]
            rw [cstr_at_length (pre ++ ds) tok rest htokn hrest]
          · simp only [List.append_nil]
            rw [cstr_zero (ds ++ tok) rest hs hrest]
            have := firstTokenCut_shape ds tok [] hds htok (Or.inl rfl) (Or.inr rfl)
            simpa using this.symm
        · rw [hsg]
          exact Or.inr ⟨rfl, hal⟩
      · -- the token is followed by a delimiter
        subst hs2
        subst hr
        subst hsr
        have hbuf : st.line = pre ++ ds ++ tok ++ d :: (tl ++ rest) := by
          rw [hline]; simp
        have hst := strtok_mid pre ds tok d (tl ++ rest) st.save arg harg hds htok hne hd
        unfold splitFrom
        rw [hbuf, hst]
        simp only
        rw [splitLoop_some]
        rcases storeAndGrow_inv alloc
          { st with line := pre ++ ds ++ tok ++ NUL :: (tl ++ rest),
                    save := (pre ++ ds ++ tok).length + 1 }
          ptrs (pre ++ ds).length hinv with ⟨st2, hsg, hinv2, hl2, hsv2⟩ | ⟨hsg, hal⟩
        · rw [hsg]
          simp only at hl2 hsv2 ⊢
          have htl : ∀ c ∈ tl, c ≠ NUL := by
            intro c hc; exact hs c (by simp [hc])
          have hrec := ih tl (by simp at hslen hn ⊢; omega) (pre ++ ds ++ tok ++ [NUL]) rest st2
            (ptrs ++ [(pre ++ ds).length]) f none htl hrest
            (by rw [hl2]; simp) (by simpa using hsv2) hinv2 (by simp at hslen hfuel ⊢; omega)
          rcases hrec with ⟨st3, newptrs, tail, hres, hl3, hinv3, hmap, _⟩ | ⟨hres, hal⟩
          · left
            refine ⟨st3, (pre ++ ds).length :: newptrs, ds ++ tok ++ NUL :: tail, hres,
              by rw [hl3]; simp, by simpa using hinv3, ?_, ?_⟩
            · rw [delimRuns_skip ds _ hds, delimRuns_mid tok d tl hne htok hd]
              simp only [List.map_cons]
              rw [hmap]
              congr 1
              rw [hl3]
              have := cstr_at_length (pre ++ ds) tok (NUL :: tail) htokn (by simp)
              simpa using this
            · have hdt : ∀ c ∈ ds ++ tok, c ≠ NUL := by
                intro c hc; exact hs c (by
                  rcases List.mem_append.mp hc with h | h
                  · simp [h]
                  · simp [h])
              rw [cstr_zero (ds ++ tok) (NUL :: tail) hdt (by simp)]
              have := firstTokenCut_shape ds tok (d :: tl) hds htok
                (Or.inr ⟨d, tl, rfl, hd⟩) (Or.inl hne)
              simpa using this.symm
          · exact Or.inr ⟨hres, hal⟩
        · rw [hsg]
          exact Or.inr ⟨rfl, hal⟩

/-! ### The tokenizer -/

theorem argvPtrs_fill (ptrs : List Nat) (rest : List Slot) :
    argvPtrs (ptrs.map Slot.ptr ++ Slot.null :: rest) = some ptrs := by
  induction ptrs with
  | nil => rfl
  | cons p ptrs ih => simp [argvPtrs, ih]

theorem cstr_shape (buf : List Char) :
    ∃ rest, buf = [] ++ cstr buf 0 ++ rest ∧ (∀ c ∈ cstr buf 0, c ≠ NUL) ∧
      (∀ c, rest.head? = some c → c = NUL) := by
  obtain ⟨a, b, hab, ha, hb⟩ := span_decomp (fun c => c != NUL) buf
  have hc : cstr buf 0 = a := by
    unfold cstr
    rw [List.drop_zero, hab]
    exact takeWhile_run _ a b ha hb
  refine ⟨b, by rw [hc]; simpa using hab, ?_, ?_⟩
  · intro c hcm; rw [hc] at hcm; simpa using ha c hcm
  · intro c hcm; simpa using hb c hcm

theorem cstr_length_le (buf : List Char) : (cstr buf 0).length ≤ buf.length := by
  obtain ⟨rest, h, _, _⟩ := cstr_shape buf
  have := congrArg List.length h
  simp at this
  omega

theorem mkshell_split_line_eq (alloc : Nat → Bool) (buf : List Char) :
    mkshell_split_line alloc buf =
      if alloc MKSHELL_TOK_BUFSIZE then
        match splitFrom alloc buf.length (splitStart buf) (some 0) with
        | .error e => .error e
        | .ok st => storeToken st .null
      else .error (.exit EXIT_FAILURE) := rfl

/-- The tokenizer, with whatever the allocator does: either an allocation failed and the
process exits, or the array holds the runs of the line followed by the NULL terminator and
every store went to the slot recorded by `storeAt`. -/
theorem mkshell_split_line_spec (alloc : Nat → Bool) (buf : List Char) :
    (∃ st ptrs, mkshell_split_line alloc buf = .ok st ∧ argvPtrs st.tokens = some ptrs ∧
        ptrs.map (cstr st.line) = delimRuns (cstr buf 0) ∧
        cstr st.line 0 = firstTokenCut (cstr buf 0) ∧
        st.stores = (List.range (ptrs.length + 1)).map storeAt) ∨
    (mkshell_split_line alloc buf = .error (.exit EXIT_FAILURE) ∧ ∃ n, alloc n = false) := by
  rw [mkshell_split_line_eq]
  cases ha : alloc MKSHELL_TOK_BUFSIZE with
  | false => exact Or.inr ⟨by simp, _, ha⟩
  | true =>
    simp only [if_true]
    obtain ⟨rest, hbuf, hs, hrest⟩ := cstr_shape buf
    have hinv0 : TokInv (splitStart buf) [] := ⟨rfl, rfl, by simp [splitStart, MKSHELL_TOK_BUFSIZE], rfl⟩
    rcases splitFrom_spec alloc (cstr buf 0).length (cstr buf 0) (le_refl _) [] rest _ []
        buf.length (some 0) hs hrest hbuf rfl hinv0 (cstr_length_le buf) with
      ⟨st, ptrs, tail, hres, hl, hinv, hmap, hcut⟩ | ⟨hres, hal⟩
    · left
      rw [hres]
      simp only [List.nil_append] at hinv hl
      obtain ⟨k, _, hstore⟩ := storeToken_inv st ptrs .null hinv
      refine ⟨_, ptrs, hstore, ?_, hmap, ?_, rfl⟩
      · exact argvPtrs_fill ptrs _
      · show cstr st.line 0 = _
        rw [hl]; exact hcut
    · right
      rw [hres]
      exact ⟨rfl, hal⟩

theorem splitOnP_forall {α : Type} (p : α → Bool) (l : List α) :
    ∀ t ∈ l.splitOnP p, ∀ c ∈ t, p c = false := by
  induction l with
  | nil => intro t ht c hc; simp [List.splitOnP_nil] at ht; subst ht; simp at hc
  | cons x l ih =>
    intro t ht c hc
    rw [List.splitOnP_cons] at ht
    by_cases hx : p x = true
    · rw [if_pos hx] at ht
      rcases List.mem_cons.mp ht with h | h
      · subst h; simp at hc
      · exact ih t h c hc
    · rw [if_neg hx] at ht
      cases hsp : l.splitOnP p with
      | nil => rw [hsp] at ht; simp at ht
      | cons hd tl =>
        rw [hsp] at ht ih
        simp only [List.modifyHead_cons] at ht
        rcases List.mem_cons.mp ht with h | h
        · subst h
          rcases List.mem_cons.mp hc with h2 | h2
          · subst h2; simpa using hx
          · exact ih hd (by simp) c h2
        · exact ih t (by simp [h]) c hc

theorem delimRuns_no_delim (s : List Char) :
    ∀ t ∈ delimRuns s, ∀ c ∈ t, c ∉ MKSHELL_TOK_DELIM := by
  intro t ht c hc
  unfold delimRuns at ht
  have := splitOnP_forall (fun c => MKSHELL_TOK_DELIM.elem c) s t (List.mem_filter.mp ht).1 c hc
  simpa using this

theorem delimRuns_all_delim (s : List Char) (h : ∀ c ∈ s, c ∈ MKSHELL_TOK_DELIM) :
    delimRuns s = [] := by
  have := delimRuns_skip s [] (fun c hc => (isSkip_iff c).mpr (by simpa using h c hc))
  simpa using this

/-- With an allocator that never fails the tokenizer returns, and what it returns is described
by `mkshell_split_line_spec`. -/
theorem mkshell_split_line_ok (alloc : Nat → Bool) (halloc : ∀ n, alloc n = true)
    (buf : List Char) :
    ∃ st ptrs, mkshell_split_line alloc buf = .ok st ∧ argvPtrs st.tokens = some ptrs ∧
        ptrs.map (cstr st.line) = delimRuns (cstr buf 0) ∧
        cstr st.line 0 = firstTokenCut (cstr buf 0) ∧
        st.stores = (List.range (ptrs.length + 1)).map storeAt := by
  rcases mkshell_split_line_spec alloc buf with h | ⟨_, n, hn⟩
  · exact h
  · rw [halloc n] at hn; exact Bool.noConfusion hn

theorem argvStrings_of (st : SplitState) (ptrs : List Nat) (runs : List (List Char))
    (h1 : argvPtrs st.tokens = some ptrs) (h2 : ptrs.map (cstr st.line) = runs) :
    argvStrings st = some runs := by
  unfold argvStrings
  rw [h1, ← h2]
  rfl

theorem storeAt_in_bounds (p : Nat) : (storeAt p).1 < (storeAt p).2.1 ∧
    (storeAt p).2.1 = (storeAt p).2.2 := by
  refine ⟨?_, rfl⟩
  show p < MKSHELL_TOK_BUFSIZE * (p / MKSHELL_TOK_BUFSIZE + 1)
  simp only [MKSHELL_TOK_BUFSIZE]
  omega

/-- C1: for every line buffer, `mkshell_split_line` returns a NULL-terminated vector whose
strings are exactly the maximal non-empty runs of non-delimiter bytes of the line, in order,
however many there are; no run is empty, none holds a delimiter, and a line made only of
delimiters (or the empty line) gives the empty vector. -/
theorem split_line_returns_runs (buf : List Char) :
    (mkshell_split_line (fun _ => true) buf).map argvStrings
        = .ok (some (delimRuns (cstr buf 0))) ∧
    (∀ t ∈ delimRuns (cstr buf 0), t ≠ [] ∧ ∀ c ∈ t, c ∉ MKSHELL_TOK_DELIM) ∧
    ((∀ c ∈ cstr buf 0, c ∈ MKSHELL_TOK_DELIM) →
      (mkshell_split_line (fun _ => true) buf).map argvStrings = .ok (some [])) := by
  obtain ⟨st, ptrs, hres, hargv, hmap, _, _⟩ :=
    mkshell_split_line_ok (fun _ => true) (fun _ => rfl) buf
  have hmain : (mkshell_split_line (fun _ => true) buf).map argvStrings
      = .ok (some (delimRuns (cstr buf 0))) := by
    rw [hres]
    show Except.ok (argvStrings st) = _
    rw [argvStrings_of st ptrs _ hargv hmap]
  refine ⟨hmain, ?_, ?_⟩
  · intro t ht
    exact ⟨delimRuns_nonempty _ t ht, delimRuns_no_delim _ t ht⟩
  · intro hall
    rw [hmain, delimRuns_all_delim _ hall]

/-- C1 at a concrete input: a line of a space and a tab gives the empty vector. -/
theorem split_line_returns_runs_witness :
    (∀ c ∈ cstr [Char.ofNat 32, Char.ofNat 9] 0, c ∈ MKSHELL_TOK_DELIM) ∧
    (mkshell_split_line (fun _ => true) [Char.ofNat 32, Char.ofNat 9]).map argvStrings
      = .ok (some []) :=
  ⟨by decide, (split_line_returns_runs [Char.ofNat 32, Char.ofNat 9]).2.2 (by decide)⟩

/-- C10: for every line buffer no store of `mkshell_split_line` lands outside the token array,
whatever the allocator does; when allocation succeeds the stores are those at positions
`0 .. n` for a line of `n` tokens, the last one being the NULL terminator, each made with
`position < bufsize`, `bufsize` being the number of slots allocated at that moment
(64 for positions below 64, 128 below 128, and so on). -/
theorem split_line_stores_in_bounds (buf : List Char) :
    (∀ alloc, mkshell_split_line alloc buf ≠ .error .outOfBounds) ∧
    ∃ st, mkshell_split_line (fun _ => true) buf = .ok st ∧
      st.stores = (List.range ((delimRuns (cstr buf 0)).length + 1)).map storeAt ∧
      (∀ x ∈ st.stores, x.1 < x.2.1 ∧ x.2.1 = x.2.2) ∧
      storeAt 63 = (63, 64, 64) ∧ storeAt 64 = (64, 128, 128) := by
  constructor
  · intro alloc h
    rcases mkshell_split_line_spec alloc buf with ⟨st, _, hres, _⟩ | ⟨hres, _⟩
    · rw [hres] at h; exact Except.noConfusion h
    · rw [hres] at h
      injection h with h
      exact Fault.noConfusion h
  · obtain ⟨st, ptrs, hres, _, hmap, _, hstores⟩ :=
      mkshell_split_line_ok (fun _ => true) (fun _ => rfl) buf
    have hlen : ptrs.length = (delimRuns (cstr buf 0)).length := by
      rw [← hmap, List.length_map]
    refine ⟨st, hres, by rw [hstores, hlen], ?_, by decide, by decide⟩
    intro x hx
    rw [hstores] at hx
    obtain ⟨p, _, rfl⟩ := List.mem_map.mp hx
    exact storeAt_in_bounds p

/-! ### The history ring -/

theorem lastN_of_le {α : Type} (n : Nat) (l : List α) (h : l.length ≤ n) : lastN n l = l := by
  unfold lastN
  rw [Nat.sub_eq_zero_of_le h]
  rfl

theorem length_lastN {α : Type} (n : Nat) (l : List α) : (lastN n l).length = min n l.length := by
  unfold lastN
  rw [List.length_drop]
  omega

theorem lastN_append {α : Type} (n : Nat) (a b : List α) :
    lastN n (lastN n a ++ b) = lastN n (a ++ b) := by
  by_cases h : a.length ≤ n
  · rw [lastN_of_le n a h]
  · have hlen : (lastN n a).length = n := by rw [length_lastN]; omega
    unfold lastN at hlen ⊢
    rw [List.length_append, List.length_append, hlen]
    have e1 : n + b.length - n = b.length := by omega
    have e2 : a.length + b.length - n = (a.length - n) + b.length := by omega
    have e3 : List.drop ((a.length - n) + b.length) (a ++ b)
        = List.drop b.length (List.drop (a.length - n) (a ++ b)) := by
      rw [List.drop_drop]
    rw [e1, e2, e3, List.drop_append_of_le_length (Nat.sub_le _ _)]

theorem ring_at_start (input : List Char) : Ring (Shell.start input) [] :=
  ⟨by simp [Shell.start], rfl, by simp, rfl⟩

theorem record_ring (sh : Shell) (es : List HSlot) (e : HSlot) (h : Ring sh es) :
    Ring (recordHistory sh e) (lastN MKSHELL_HISTSIZE (es ++ [e])) ∧
    (recordHistory sh e).out = sh.out ∧ (recordHistory sh e).stdin = sh.stdin ∧
    (recordHistory sh e).err = sh.err ∧ (recordHistory sh e).sys = sh.sys := by
  obtain ⟨hlen, hcount, hle, htake⟩ := h
  unfold recordHistory
  by_cases hfull : sh.history_count < MKSHELL_HISTSIZE
  · rw [if_pos hfull]
    refine ⟨?_, rfl, rfl, rfl, rfl⟩
    have hl : (es ++ [e]).length ≤ MKSHELL_HISTSIZE := by simp; omega
    rw [lastN_of_le _ _ hl]
    refine ⟨by simp [hlen], by simp [hcount], hl, ?_⟩
    show (sh.history.set sh.history_count e).take (es ++ [e]).length = es ++ [e]
    have hsplit : sh.history = es ++ sh.history.drop es.length := by
      conv_lhs => rw [← List.take_append_drop es.length sh.history, htake]
    obtain ⟨x, post, hpost⟩ : ∃ x post, sh.history.drop es.length = x :: post := by
      cases hd : sh.history.drop es.length with
      | nil =>
        have := congrArg List.length hd
        simp at this
        omega
      | cons x post => exact ⟨x, post, rfl⟩
    rw [hsplit, hpost, hcount, set_at_length]
    have : es ++ e :: post = (es ++ [e]) ++ post := by simp
    rw [this, List.take_left]
  · rw [if_neg hfull]
    refine ⟨?_, rfl, rfl, rfl, rfl⟩
    have hn : es.length = MKSHELL_HISTSIZE := by omega
    have hes : sh.history = es := by
      rw [← htake, hn, ← hlen, List.take_length]
    have hlen2 : es.length = 10 := hn
    obtain ⟨x, t, rfl⟩ : ∃ x t, es = x :: t := by
      cases es with
      | nil => simp at hlen2
      | cons x t => exact ⟨x, t, rfl⟩
    have ht : t.length = 9 := by simpa using hlen2
    have hlast : lastN MKSHELL_HISTSIZE (x :: t ++ [e]) = t ++ [e] := by
      unfold lastN
      simp [MKSHELL_HISTSIZE, ht]
    obtain ⟨y, hy⟩ : ∃ y, t.drop 8 = [y] := by
      cases hd : t.drop 8 with
      | nil =>
        have := congrArg List.length hd
        simp at this
        omega
      | cons y r =>
        have := congrArg List.length hd
        simp at this
        have hr : r = [] := List.length_eq_zero.mp (by omega)
        exact ⟨y, by rw [hr]⟩
    have hmoved : (((sh.history.set 0 HSlot.freed).drop 1).take (MKSHELL_HISTSIZE - 1) ++
        (sh.history.set 0 HSlot.freed).drop (MKSHELL_HISTSIZE - 1)).set
          (MKSHELL_HISTSIZE - 1) e = t ++ [e] := by
      rw [hes]
      simp only [List.set_cons_zero, List.drop_succ_cons, List.drop_zero, MKSHELL_HISTSIZE]
      show (t.take 9 ++ t.drop 8).set 9 e = t ++ [e]
      rw [← ht, List.take_length, ht, hy]
      have := set_at_length t [] y e
      rw [ht] at this
      exact this
    rw [hlast]
    refine ⟨?_, ?_, ?_, ?_⟩
    · show (List.set _ _ _).length = _
      rw [hmoved]; simp [ht, MKSHELL_HISTSIZE]
    · show sh.history_count = _
      rw [hcount]; simp [ht]
    · simp [ht, MKSHELL_HISTSIZE]
    · show (List.set _ _ _).take _ = _
      rw [hmoved, List.take_length]

theorem recordAll_ring (alloc : Nat → Bool) (bufs : List (List Char)) :
    ∀ (sh : Shell) (es : List HSlot), Ring sh es →
      Ring (recordAll alloc sh bufs) (lastN MKSHELL_HISTSIZE (es ++ bufs.map (strdup alloc))) ∧
      (recordAll alloc sh bufs).out = sh.out := by
  induction bufs with
  | nil =>
    intro sh es h
    have hle := h.2.2.1
    simp only [List.map_nil, List.append_nil]
    rw [lastN_of_le _ _ hle]
    exact ⟨h, rfl⟩
  | cons b bufs ih =>
    intro sh es h
    obtain ⟨hr, hout, _⟩ := record_ring sh es (strdup alloc b) h
    obtain ⟨h1, h2⟩ := ih (recordHistory sh (strdup alloc b)) _ hr
    rw [lastN_append] at h1
    refine ⟨?_, ?_⟩
    · show Ring (recordAll alloc (recordHistory sh (strdup alloc b)) bufs) _
      simpa using h1
    · show (recordAll alloc (recordHistory sh (strdup alloc b)) bufs).out = _
      rw [h2, hout]

theorem Ring.split {sh : Shell} {es : List HSlot} (h : Ring sh es) :
    sh.history = [] ++ es ++ sh.history.drop es.length := by
  obtain ⟨_, _, _, htake⟩ := h
  conv_lhs => rw [← List.take_append_drop es.length sh.history, htake]
  simp

theorem getElem?_at_length {α : Type} (a b : List α) (x : α) :
    (a ++ x :: b)[a.length]? = some x := by
  induction a with
  | nil => simp
  | cons y a ih => simpa using ih

theorem historyLoop_spec (ss : List (List Char)) :
    ∀ (pre post : List HSlot) (sh : Shell),
      sh.history = pre ++ ss.map HSlot.str ++ post →
      historyLoop ss.length pre.length sh
        = .ok { sh with out := sh.out ++ historyLinesFrom pre.length ss } := by
  induction ss with
  | nil =>
    intro pre post sh _
    simp [historyLoop, historyLinesFrom]
  | cons s ss ih =>
    intro pre post sh hh
    have hget : sh.history[pre.length]? = some (HSlot.str s) := by
      rw [hh]
      simp only [List.map_cons, List.append_assoc, List.cons_append]
      exact getElem?_at_length _ _ _
    have hrec := ih (pre ++ [HSlot.str s]) post
      (sh.print (lit (Nat.repr pre.length) ++ lit ": " ++ s ++ lit "\n"))
      (by show sh.history = _; rw [hh]; simp)
    simp only [List.length_append, List.length_singleton] at hrec
    show historyLoop (ss.length + 1) pre.length sh = _
    rw [historyLoop, hget]
    simp only
    rw [hrec]
    simp [Shell.print, historyLinesFrom]

theorem clearLoop_spec (es : List HSlot) (hes : ∀ e ∈ es, e ≠ HSlot.freed) :
    ∀ (pre post : List HSlot),
      clearLoop es.length pre.length (pre ++ es ++ post)
        = .ok (pre ++ es.map freedSlot ++ post) := by
  induction es with
  | nil => intro pre post; simp [clearLoop]
  | cons e es ih =>
    intro pre post
    have hget : (pre ++ (e :: es) ++ post)[pre.length]? = some e := by
      simp only [List.append_assoc, List.cons_append]
      exact getElem?_at_length _ _ _
    have hset : (pre ++ (e :: es) ++ post).set pre.length HSlot.freed
        = (pre ++ [HSlot.freed]) ++ es ++ post := by
      simp only [List.append_assoc, List.cons_append]
      rw [set_at_length]
      simp
    have hrec := ih (fun x hx => hes x (by simp [hx]))
    show clearLoop (es.length + 1) pre.length _ = _
    rw [clearLoop, hget]
    cases e with
    | freed => exact absurd rfl (hes _ (by simp))
    | null =>
      simp only
      have := hrec (pre ++ [HSlot.null]) post
      simp only [List.length_append, List.length_singleton, List.append_assoc,
        List.singleton_append, List.cons_append] at this
      simp only [List.append_assoc, List.cons_append, List.map_cons, freedSlot]
      exact this
    | str s =>
      simp only
      rw [hset]
      have := hrec (pre ++ [HSlot.freed]) post
      simp only [List.length_append, List.length_singleton] at this
      rw [this]
      simp [freedSlot]

theorem mkshell_history_ring (env : Env) (sh : Shell) (ss : List (List Char))
    (args : List (List Char)) (h : Ring sh (ss.map HSlot.str)) :
    mkshell_history env sh args
      = .ok (1, { sh with out := sh.out ++ historyLinesFrom 0 ss }) := by
  have hsplit := h.split
  have hcount : sh.history_count = ss.length := by rw [h.2.1, List.length_map]
  have := historyLoop_spec ss [] (sh.history.drop (ss.map HSlot.str).length) sh hsplit
  unfold mkshell_history
  rw [hcount]
  simp only [List.length_nil] at this
  rw [this]
  simp [hcount]

theorem mkshell_clear_history_ring (env : Env) (sh : Shell) (es : List HSlot)
    (args : List (List Char)) (h : Ring sh es) (hes : ∀ e ∈ es, e ≠ HSlot.freed) :
    mkshell_clear_history env sh args
      = .ok (1, { sh with history := es.map freedSlot ++ sh.history.drop es.length,
                          history_count := 0 }) := by
  have hsplit := h.split
  have := clearLoop_spec es hes [] (sh.history.drop es.length)
  unfold mkshell_clear_history
  rw [h.2.1]
  conv_lhs => rw [hsplit]
  simp only [List.length_nil] at this
  rw [this]
  simp

theorem mkshell_clear_history_empty (env : Env) (sh : Shell) (args : List (List Char))
    (h : sh.history_count = 0) : mkshell_clear_history env sh args = .ok (1, sh) := by
  cases sh
  simp only at h
  subst h
  rfl

theorem strdup_ok (b : List Char) : strdup (fun _ => true) b = HSlot.str (cstr b 0) := by
  simp [strdup]

theorem strdup_ne_freed (alloc : Nat → Bool) (b : List Char) : strdup alloc b ≠ HSlot.freed := by
  unfold strdup
  split <;> simp

theorem lastN_map {α β : Type} (f : α → β) (n : Nat) (l : List α) :
    lastN n (l.map f) = (lastN n l).map f := by
  simp [lastN, List.map_drop]

theorem mem_of_mem_lastN {α : Type} (n : Nat) (l : List α) (x : α) (h : x ∈ lastN n l) :
    x ∈ l := List.mem_of_mem_drop h

/-- C2: starting from the empty ring, after the history step of the loop has run on any
sequence of `k` line buffers, `history_count = min k 10`, the array still has its 10 slots,
the slots below `history_count` hold exactly the last `min k 10` strings recorded, oldest
first, and `mkshell_history` returns 1 after printing `"<i>: <text>\n"` for each of them, `i`
running from 0. -/
theorem history_ring_fifo (env : Env) (input : List Char) (bufs : List (List Char))
    (args : List (List Char)) :
    (recordAll (fun _ => true) (Shell.start input) bufs).history_count
      = min bufs.length MKSHELL_HISTSIZE ∧
    (recordAll (fun _ => true) (Shell.start input) bufs).history.length = MKSHELL_HISTSIZE ∧
    (recordAll (fun _ => true) (Shell.start input) bufs).history.take
        (recordAll (fun _ => true) (Shell.start input) bufs).history_count
      = (lastN MKSHELL_HISTSIZE (bufs.map (fun b => cstr b 0))).map HSlot.str ∧
    mkshell_history env (recordAll (fun _ => true) (Shell.start input) bufs) args
      = .ok (1, { recordAll (fun _ => true) (Shell.start input) bufs with
          out := (recordAll (fun _ => true) (Shell.start input) bufs).out ++
            historyLinesFrom 0 (lastN MKSHELL_HISTSIZE (bufs.map (fun b => cstr b 0))) }) := by
  obtain ⟨hring, _⟩ := recordAll_ring (fun _ => true) bufs (Shell.start input) []
    (ring_at_start input)
  have hmap : bufs.map (strdup (fun _ => true))
      = (bufs.map (fun b => cstr b 0)).map HSlot.str := by
    rw [List.map_map]
    apply List.map_congr_left
    intro b _
    exact strdup_ok b
  rw [List.nil_append, hmap, lastN_map] at hring
  have hlenk : ((lastN MKSHELL_HISTSIZE (bufs.map (fun b => cstr b 0))).map HSlot.str).length
      = min bufs.length MKSHELL_HISTSIZE := by
    rw [List.length_map, length_lastN, List.length_map, Nat.min_comm]
  refine ⟨?_, hring.1, ?_, mkshell_history_ring env _ _ args hring⟩
  · rw [hring.2.1, hlenk]
  · rw [hring.2.1]
    exact hring.2.2.2

/-- C6: after any sequence of recordings from the empty ring, whether or not `strdup`
succeeded, `mkshell_clear_history` returns 1 and leaves `history_count = 0`; `mkshell_history`
called next returns 1 and prints nothing (the state is unchanged); clearing again changes
nothing; and clearing any ring with `history_count = 0` changes nothing. -/
theorem clear_history_empties (env : Env) (alloc : Nat → Bool) (input : List Char)
    (bufs : List (List Char)) (args : List (List Char)) :
    (∃ sh, mkshell_clear_history env (recordAll alloc (Shell.start input) bufs) args
        = .ok (1, sh) ∧
      sh.history_count = 0 ∧
      sh.out = (recordAll alloc (Shell.start input) bufs).out ∧
      mkshell_history env sh args = .ok (1, sh) ∧
      mkshell_clear_history env sh args = .ok (1, sh)) ∧
    (∀ sh0 : Shell, sh0.history_count = 0 →
        mkshell_clear_history env sh0 args = .ok (1, sh0)) := by
  obtain ⟨hring, _⟩ := recordAll_ring alloc bufs (Shell.start input) [] (ring_at_start input)
  have hes : ∀ e ∈ lastN MKSHELL_HISTSIZE ([] ++ bufs.map (strdup alloc)),
      e ≠ HSlot.freed := by
    intro e he
    have := mem_of_mem_lastN _ _ _ he
    simp only [List.nil_append] at this
    obtain ⟨b, _, rfl⟩ := List.mem_map.mp this
    exact strdup_ne_freed alloc b
  refine ⟨⟨_, mkshell_clear_history_ring env _ _ args hring hes, rfl, rfl, rfl, ?_⟩, ?_⟩
  · exact mkshell_clear_history_empty env _ args rfl
  · intro sh0 h0
    exact mkshell_clear_history_empty env sh0 args h0

/-- C6 at a concrete input: the ring of a shell that has just started is empty, and clearing it
changes nothing. -/
theorem clear_history_empties_witness :
    (Shell.start []).history_count = 0 ∧
    mkshell_clear_history sampleEnv (Shell.start []) [] = .ok (1, Shell.start []) :=
  ⟨rfl, (clear_history_empties sampleEnv (fun _ => true) [] [] []).2 (Shell.start []) rfl⟩

/-! ### Built-in commands and the dispatcher -/

theorem strcmp_eq_zero (a b : List Char) : strcmp a b = 0 ↔ a = b := by
  induction a generalizing b with
  | nil =>
    cases b with
    | nil => simp [strcmp]
    | cons y b => simp [strcmp]
  | cons x a ih =>
    cases b with
    | nil => simp [strcmp]
    | cons y b =>
      by_cases hxy : x = y
      · subst hxy
        simp [strcmp, ih]
      · simp only [strcmp, hxy, if_false]
        constructor
        · intro h
          split at h <;> simp at h
        · intro h
          injection h with h1 _
          exact absurd h1 hxy

theorem NoFork.refl (sh : Shell) : NoFork sh sh := ⟨[], by simp, by simp⟩

theorem NoFork.trans {a b c : Shell} (h1 : NoFork a b) (h2 : NoFork b c) : NoFork a c := by
  obtain ⟨c1, e1, n1⟩ := h1
  obtain ⟨c2, e2, n2⟩ := h2
  refine ⟨c1 ++ c2, by rw [e2, e1, List.append_assoc], ?_⟩
  intro h
  rcases List.mem_append.mp h with h | h
  · exact n1 h
  · exact n2 h

theorem NoFork.print (sh : Shell) (s : List Char) : NoFork sh (sh.print s) := ⟨[], by simp [Shell.print], by simp⟩

theorem NoFork.eprint (sh : Shell) (s : List Char) : NoFork sh (sh.eprint s) := ⟨[], by simp [Shell.eprint], by simp⟩

theorem NoFork.perror (env : Env) (sh : Shell) (s : List Char) : NoFork sh (perror env sh s) :=
  NoFork.eprint sh _

theorem NoFork.call (sh : Shell) (c : Sys) (h : c ≠ Sys.fork) : NoFork sh (sh.call c) :=
  ⟨[c], rfl, by simpa using fun e => h e.symm⟩

theorem lsLoop_noFork (names : List (List Char)) : ∀ sh, NoFork sh (lsLoop names sh) := by
  induction names with
  | nil => intro sh; exact NoFork.refl sh
  | cons n names ih => intro sh; exact (NoFork.print sh _).trans (ih _)

theorem catLoop_noFork (lines : List (List Char)) : ∀ sh, NoFork sh (catLoop lines sh) := by
  induction lines with
  | nil => intro sh; exact NoFork.refl sh
  | cons n lines ih => intro sh; exact (NoFork.print sh _).trans (ih _)

theorem cpLoop_noFork (chunks : List (List Char)) : ∀ sh, NoFork sh (cpLoop chunks sh) := by
  induction chunks with
  | nil => intro sh; exact NoFork.refl sh
  | cons b chunks ih =>
    intro sh
    unfold cpLoop
    split
    · exact (NoFork.call sh _ (by simp)).trans (ih _)
    · exact NoFork.refl sh

theorem helpLoop_noFork (n : Nat) : ∀ i sh, NoFork sh (helpLoop n i sh) := by
  induction n with
  | zero => intro i sh; exact NoFork.refl sh
  | succ n ih => intro i sh; exact (NoFork.print sh _).trans (ih _ _)

theorem mkshell_cd_delivers (env : Env) (sh : Shell) (args : List (List Char)) :
    Delivers (mkshell_cd env sh args) sh 1 := by
  unfold mkshell_cd
  split
  · exact ⟨_, rfl, NoFork.eprint sh _⟩
  · split
    · exact ⟨_, rfl, NoFork.call sh _ (by simp)⟩
    · exact ⟨_, rfl, (NoFork.call sh _ (by simp)).trans (NoFork.perror env _ _)⟩

theorem mkshell_help_delivers (env : Env) (sh : Shell) (args : List (List Char)) :
    Delivers (mkshell_help env sh args) sh 1 := by
  unfold mkshell_help
  refine ⟨_, rfl, ?_⟩
  exact ((((NoFork.print sh _).trans (NoFork.print _ _)).trans (NoFork.print _ _)).trans
    (helpLoop_noFork _ _ _)).trans (NoFork.print _ _)

theorem mkshell_exit_delivers (env : Env) (sh : Shell) (args : List (List Char)) :
    Delivers (mkshell_exit env sh args) sh 0 :=
  ⟨sh, rfl, NoFork.refl sh⟩

theorem mkshell_ls_delivers (env : Env) (sh : Shell) (args : List (List Char)) :
    Delivers (mkshell_ls env sh args) sh 1 := by
  unfold mkshell_ls
  split
  · exact ⟨_, rfl, NoFork.call sh _ (by simp)⟩
  · exact ⟨_, rfl, ((NoFork.call sh _ (by simp)).trans (lsLoop_noFork _ _)).trans
      (NoFork.call _ _ (by simp))⟩

theorem mkshell_history_delivers (env : Env) (sh : Shell) (args : List (List Char))
    (h : HistOk sh) : Delivers (mkshell_history env sh args) sh 1 := by
  obtain ⟨ss, post, hh, hc⟩ := h
  have := historyLoop_spec ss [] post sh (by simpa using hh)
  unfold mkshell_history
  rw [hc]
  simp only [List.length_nil] at this
  rw [this]
  exact ⟨_, rfl, [], by simp, by simp⟩

theorem mkshell_clear_history_delivers (env : Env) (sh : Shell) (args : List (List Char))
    (h : HistOk sh) : Delivers (mkshell_clear_history env sh args) sh 1 := by
  obtain ⟨ss, post, hh, hc⟩ := h
  have := clearLoop_spec (ss.map HSlot.str) (by
    intro e he
    obtain ⟨s, _, rfl⟩ := List.mem_map.mp he
    simp) [] post
  unfold mkshell_clear_history
  rw [hc, hh]
  simp only [List.length_nil, List.length_map, List.nil_append] at this
  rw [this]
  exact ⟨_, rfl, [], by simp, by simp⟩

theorem mkshell_cat_delivers (env : Env) (sh : Shell) (args : List (List Char)) :
    Delivers (mkshell_cat env sh args) sh 1 := by
  unfold mkshell_cat
  split
  · exact ⟨_, rfl, NoFork.eprint sh _⟩
  · split
    · exact ⟨_, rfl, (NoFork.call sh _ (by simp)).trans (NoFork.perror env _ _)⟩
    · exact ⟨_, rfl, ((NoFork.call sh _ (by simp)).trans (catLoop_noFork _ _)).trans
        (NoFork.call _ _ (by simp))⟩

theorem mkshell_mkdir_delivers (env : Env) (sh : Shell) (args : List (List Char)) :
    Delivers (mkshell_mkdir env sh args) sh 1 := by
  unfold mkshell_mkdir
  split
  · exact ⟨_, rfl, NoFork.eprint sh _⟩
  · split
    · exact ⟨_, rfl, NoFork.call sh _ (by simp)⟩
    · exact ⟨_, rfl, (NoFork.call sh _ (by simp)).trans (NoFork.perror env _ _)⟩

theorem mkshell_rmdir_delivers (env : Env) (sh : Shell) (args : List (List Char)) :
    Delivers (mkshell_rmdir env sh args) sh 1 := by
  unfold mkshell_rmdir
  split
  · exact ⟨_, rfl, NoFork.eprint sh _⟩
  · split
    · exact ⟨_, rfl, NoFork.call sh _ (by simp)⟩
    · exact ⟨_, rfl, (NoFork.call sh _ (by simp)).trans (NoFork.perror env _ _)⟩

theorem mkshell_touch_delivers (env : Env) (sh : Shell) (args : List (List Char)) :
    Delivers (mkshell_touch env sh args) sh 1 := by
  unfold mkshell_touch
  split
  · exact ⟨_, rfl, NoFork.eprint sh _⟩
  · split
    · exact ⟨_, rfl, (NoFork.call sh _ (by simp)).trans (NoFork.perror env _ _)⟩
    · exact ⟨_, rfl, (NoFork.call sh _ (by simp)).trans (NoFork.call _ _ (by simp))⟩

theorem mkshell_rm_delivers (env : Env) (sh : Shell) (args : List (List Char)) :
    Delivers (mkshell_rm env sh args) sh 1 := by
  unfold mkshell_rm
  split
  · exact ⟨_, rfl, NoFork.eprint sh _⟩
  · split
    · exact ⟨_, rfl, NoFork.call sh _ (by simp)⟩
    · exact ⟨_, rfl, (NoFork.call sh _ (by simp)).trans (NoFork.perror env _ _)⟩

theorem mkshell_cp_delivers (env : Env) (sh : Shell) (args : List (List Char)) :
    Delivers (mkshell_cp env sh args) sh 1 := by
  unfold mkshell_cp
  split
  · split
    · exact ⟨_, rfl, (NoFork.call sh _ (by simp)).trans (NoFork.perror env _ _)⟩
    · split
      · exact ⟨_, rfl, (((NoFork.call sh _ (by simp)).trans (NoFork.call _ _ (by simp))).trans
          (NoFork.perror env _ _)).trans (NoFork.call _ _ (by simp))⟩
      · exact ⟨_, rfl, ((((NoFork.call sh _ (by simp)).trans (NoFork.call _ _ (by simp))).trans
          (cpLoop_noFork _ _)).trans (NoFork.call _ _ (by simp))).trans
          (NoFork.call _ _ (by simp))⟩
  · exact ⟨_, rfl, NoFork.eprint sh _⟩

theorem mkshell_path_delivers (env : Env) (sh : Shell) (args : List (List Char)) :
    Delivers (mkshell_path env sh args) sh 1 := by
  unfold mkshell_path
  split
  · exact ⟨_, rfl, NoFork.print sh _⟩
  · exact ⟨_, rfl, NoFork.perror env sh _⟩

/-- Every built-in returns: `mkshell_exit` with 0, the others with 1, none of them forks. -/
theorem Builtin.call_delivers (b : Builtin) (env : Env) (sh : Shell)
    (args : List (List Char)) (h : HistOk sh) :
    Delivers (b.call env sh args) sh (if b = Builtin.mkshell_exit then 0 else 1) := by
  cases b
  · exact mkshell_cd_delivers env sh args
  · exact mkshell_help_delivers env sh args
  · exact mkshell_exit_delivers env sh args
  · exact mkshell_ls_delivers env sh args
  · exact mkshell_history_delivers env sh args h
  · exact mkshell_cat_delivers env sh args
  · exact mkshell_mkdir_delivers env sh args
  · exact mkshell_rmdir_delivers env sh args
  · exact mkshell_touch_delivers env sh args
  · exact mkshell_rm_delivers env sh args
  · exact mkshell_clear_history_delivers env sh args h
  · exact mkshell_cp_delivers env sh args
  · exact mkshell_path_delivers env sh args

theorem waitLoop_sys (n : Nat) : ∀ sh, (waitLoop n sh).sys
    = sh.sys ++ List.replicate (n + 1) Sys.waitpid ∧ (waitLoop n sh).history = sh.history ∧
      (waitLoop n sh).history_count = sh.history_count ∧ (waitLoop n sh).out = sh.out ∧
      (waitLoop n sh).stdin = sh.stdin := by
  induction n with
  | zero => intro sh; simp [waitLoop, Shell.call]
  | succ n ih =>
    intro sh
    obtain ⟨h1, h2, h3, h4, h5⟩ := ih (sh.call .waitpid)
    refine ⟨?_, h2, h3, h4, h5⟩
    show (waitLoop n (sh.call .waitpid)).sys = _
    rw [h1]
    simp [Shell.call, List.replicate_succ]

/-- The launcher always returns 1 to the shell, forks exactly once, and leaves the ring,
standard input and standard output alone. -/
theorem mkshell_launch_spec (env : Env) (sh : Shell) (args : List (List Char)) :
    ∃ sh1, mkshell_launch env sh args = .ok (1, sh1) ∧
      (sh1.sys.drop sh.sys.length).count Sys.fork = 1 ∧ sh1.sys.take sh.sys.length = sh.sys ∧
      sh1.history = sh.history ∧ sh1.history_count = sh.history_count ∧
      sh1.out = sh.out ∧ sh1.stdin = sh.stdin := by
  unfold mkshell_launch
  split
  · split
    · obtain ⟨h1, h2, h3, h4, h5⟩ := waitLoop_sys env.stops
        ((perror env ((sh.call .fork).call (.execvp (args.headD []) args)) (lit "mkshell")).call
          (.childExit EXIT_FAILURE))
      refine ⟨_, rfl, ?_, ?_, h2, h3, h4, h5⟩
      · rw [h1]; simp [Shell.call, perror, Shell.eprint, List.count_cons, List.count_replicate]
      · rw [h1]; simp [Shell.call, perror, Shell.eprint]
    · obtain ⟨h1, h2, h3, h4, h5⟩ := waitLoop_sys env.stops
        ((sh.call .fork).call (.execvp (args.headD []) args))
      refine ⟨_, rfl, ?_, ?_, h2, h3, h4, h5⟩
      · rw [h1]; simp [Shell.call, List.count_cons, List.count_replicate]
      · rw [h1]; simp [Shell.call]
  · refine ⟨_, rfl, ?_, ?_, rfl, rfl, rfl, rfl⟩
    · simp [Shell.call, perror, Shell.eprint]
    · simp [Shell.call, perror, Shell.eprint]

theorem executeLoop_miss (env : Env) (sh : Shell) (args : List (List Char))
    (arg0 : List Char) (n : Nat) :
    ∀ i, (∀ j, i ≤ j → j < i + n → ∃ name, builtin_str[j]? = some name ∧ name ≠ arg0) →
      executeLoop env sh args arg0 n i = mkshell_launch env sh args := by
  induction n with
  | zero => intro i _; rfl
  | succ n ih =>
    intro i h
    obtain ⟨name, hname, hne⟩ := h i (le_refl _) (by omega)
    rw [executeLoop, hname]
    simp only
    rw [if_neg (by rw [strcmp_eq_zero]; exact fun e => hne e.symm)]
    exact ih (i + 1) (fun j h1 h2 => h j (by omega) (by omega))

theorem executeLoop_hit (env : Env) (sh : Shell) (args : List (List Char))
    (arg0 : List Char) (f : Builtin) (k : Nat) :
    ∀ n i, k < n →
      (∀ j, i ≤ j → j < i + k → ∃ name, builtin_str[j]? = some name ∧ name ≠ arg0) →
      builtin_str[i + k]? = some arg0 → builtin_func[i + k]? = some f →
      executeLoop env sh args arg0 n i = f.call env sh args := by
  induction k with
  | zero =>
    intro n i hn _ hs hf
    obtain ⟨m, rfl⟩ : ∃ m, n = m + 1 := ⟨n - 1, by omega⟩
    simp only [Nat.add_zero] at hs hf
    rw [executeLoop, hs]
    simp only
    rw [if_pos ((strcmp_eq_zero _ _).mpr rfl), hf]
  | succ k ih =>
    intro n i hn h hs hf
    obtain ⟨m, rfl⟩ : ∃ m, n = m + 1 := ⟨n - 1, by omega⟩
    obtain ⟨name, hname, hne⟩ := h i (le_refl _) (by omega)
    rw [executeLoop, hname]
    simp only
    rw [if_neg (by rw [strcmp_eq_zero]; exact fun e => hne e.symm)]
    exact ih m (i + 1) (by omega) (fun j h1 h2 => h j (by omega) (by omega))
      (by rw [← hs]; congr 1; omega) (by rw [← hf]; congr 1; omega)

theorem builtin_str_nodup : builtin_str.Nodup := by decide

theorem builtin_str_distinct :
    ∀ i, i < 13 → ∀ j, j < i → builtin_str[j]? ≠ builtin_str[i]? := by decide

theorem builtin_tables_aligned :
    ∀ i, i < 13 → ∃ name f, builtin_str[i]? = some name ∧ builtin_func[i]? = some f ∧
      f.symbol = lit "mkshell_" ++ name ∧ (f = Builtin.mkshell_exit ↔ name = lit "exit") := by
  intro i hi
  interval_cases i <;> exact ⟨_, _, rfl, rfl, by decide, by decide⟩

theorem builtin_str_get (j : Nat) (hj : j < 13) :
    ∃ name, builtin_str[j]? = some name := by
  obtain ⟨name, _, h, _⟩ := builtin_tables_aligned j hj
  exact ⟨name, h⟩

theorem index_lt_of_get {i : Nat} {name : List Char} (h : builtin_str[i]? = some name) :
    i < 13 := by
  by_contra hc
  have : builtin_str[i]? = none := List.getElem?_eq_none (by
    show builtin_str.length ≤ i
    have : builtin_str.length = 13 := rfl
    omega)
  rw [this] at h
  exact Option.noConfusion h

/-- A registered name dispatches to the entry of `builtin_func` at its own index. -/
theorem mkshell_execute_registered (env : Env) (sh : Shell) (i : Nat) (name : List Char)
    (f : Builtin) (rest : List (List Char)) (hs : builtin_str[i]? = some name)
    (hf : builtin_func[i]? = some f) :
    mkshell_execute env sh (name :: rest) = f.call env sh (name :: rest) := by
  have hi := index_lt_of_get hs
  show executeLoop env sh (name :: rest) name mkshell_num_builtins 0 = _
  apply executeLoop_hit env sh (name :: rest) name f i mkshell_num_builtins 0
  · exact hi
  · intro j _ hj
    simp only [Nat.zero_add] at hj
    obtain ⟨nm, hnm⟩ := builtin_str_get j (by omega)
    refine ⟨nm, hnm, ?_⟩
    intro e
    have := builtin_str_distinct i hi j hj
    rw [hnm, hs, e] at this
    exact this rfl
  · simpa using hs
  · simpa using hf

/-- An unregistered name goes to the launcher. -/
theorem mkshell_execute_unregistered (env : Env) (sh : Shell) (arg0 : List Char)
    (rest : List (List Char)) (h : arg0 ∉ builtin_str) :
    mkshell_execute env sh (arg0 :: rest) = mkshell_launch env sh (arg0 :: rest) := by
  show executeLoop env sh (arg0 :: rest) arg0 mkshell_num_builtins 0 = _
  apply executeLoop_miss
  intro j _ hj
  have hj13 : j < 13 := by
    have : mkshell_num_builtins = 13 := rfl
    omega
  obtain ⟨nm, hnm⟩ := builtin_str_get j hj13
  refine ⟨nm, hnm, ?_⟩
  intro e
  subst e
  exact h (List.getElem?_mem hnm)

/-- C4: for every argument vector, every environment and every shell state whose ring entries
are live strings, `mkshell_execute` returns, its status is 0 or 1, and it is 0 exactly when
the first token is the string "exit": the empty vector, the other built-ins (with or without
arguments, whether their operation fails or not) and unregistered names (whether `fork` or
`execvp` fails or not) give 1. -/
theorem execute_status (env : Env) (sh : Shell) (args : List (List Char)) (h : HistOk sh) :
    ∃ status sh1, mkshell_execute env sh args = .ok (status, sh1) ∧
      (status = 0 ↔ args.head? = some (lit "exit")) ∧ (status = 0 ∨ status = 1) := by
  cases args with
  | nil => exact ⟨1, sh, rfl, by simp, Or.inr rfl⟩
  | cons arg0 rest =>
    by_cases hm : arg0 ∈ builtin_str
    · obtain ⟨i, hs⟩ := List.mem_iff_getElem?.mp hm
      obtain ⟨name, f, hs2, hf, _, hexit⟩ := builtin_tables_aligned i (index_lt_of_get hs)
      have hname : name = arg0 := by
        rw [hs] at hs2; exact (Option.some.inj hs2).symm
      subst hname
      obtain ⟨sh1, hres, _⟩ := f.call_delivers env sh (name :: rest) h
      rw [← mkshell_execute_registered env sh i name f rest hs hf] at hres
      refine ⟨_, sh1, hres, ?_, ?_⟩
      · simp only [List.head?_cons, Option.some.injEq]
        rw [← hexit]
        by_cases hfe : f = Builtin.mkshell_exit <;> simp [hfe]
      · by_cases hfe : f = Builtin.mkshell_exit <;> simp [hfe]
    · obtain ⟨sh1, hres, _⟩ := mkshell_launch_spec env sh (arg0 :: rest)
      rw [← mkshell_execute_unregistered env sh arg0 rest hm] at hres
      refine ⟨1, sh1, hres, ?_, Or.inr rfl⟩
      simp only [List.head?_cons, Option.some.injEq]
      constructor
      · intro h1; exact absurd h1 (by decide)
      · intro h1
        exact absurd (h1 ▸ (by decide : lit "exit" ∈ builtin_str)) hm

theorem histOk_at_start (input : List Char) : HistOk (Shell.start input) :=
  ⟨[], List.replicate MKSHELL_HISTSIZE HSlot.null, rfl, rfl⟩

/-- C4 at a concrete input: in a shell that has just started, the vector `["exit"]` gives status 0. -/
theorem execute_status_witness :
    HistOk (Shell.start []) ∧
    ∃ status sh1, mkshell_execute sampleEnv (Shell.start []) [lit "exit"] = .ok (status, sh1) ∧
      (status = 0 ↔ [lit "exit"].head? = some (lit "exit")) ∧ (status = 0 ∨ status = 1) :=
  ⟨histOk_at_start [], execute_status sampleEnv (Shell.start []) [lit "exit"] (histOk_at_start [])⟩

/-- C5: the 13 names of `builtin_str` are pairwise distinct, `builtin_func` has the same
length, and the function at each index is the one named after the name at that index; for each
of the 13 names, a vector whose first token is that name makes `mkshell_execute` do exactly
what one call of that name's own function (`mkshell_cd` for "cd", `mkshell_help` for "help",
and so on) on the same vector does, result and state unchanged; that call makes no `fork`;
any other first token (such as "CD", "c" or "cdx") makes it do exactly what `mkshell_launch`
does on the vector, which forks once and returns 1; the empty vector gives 1 and leaves the
whole state, the ring included, as it was. -/
theorem dispatch_resolution (env : Env) (sh : Shell) :
    builtin_str.Nodup ∧ builtin_str.length = 13 ∧ builtin_func.length = 13 ∧
    mkshell_num_builtins = 13 ∧
    (∀ p ∈ builtin_str.zip builtin_func, p.2.symbol = lit "mkshell_" ++ p.1) ∧
    (∀ rest : List (List Char),
      mkshell_execute env sh (lit "cd" :: rest) = mkshell_cd env sh (lit "cd" :: rest) ∧
      mkshell_execute env sh (lit "help" :: rest) = mkshell_help env sh (lit "help" :: rest) ∧
      mkshell_execute env sh (lit "exit" :: rest) = mkshell_exit env sh (lit "exit" :: rest) ∧
      mkshell_execute env sh (lit "ls" :: rest) = mkshell_ls env sh (lit "ls" :: rest) ∧
      mkshell_execute env sh (lit "history" :: rest) = mkshell_history env sh (lit "history" :: rest) ∧
      mkshell_execute env sh (lit "cat" :: rest) = mkshell_cat env sh (lit "cat" :: rest) ∧
      mkshell_execute env sh (lit "mkdir" :: rest) = mkshell_mkdir env sh (lit "mkdir" :: rest) ∧
      mkshell_execute env sh (lit "rmdir" :: rest) = mkshell_rmdir env sh (lit "rmdir" :: rest) ∧
      mkshell_execute env sh (lit "touch" :: rest) = mkshell_touch env sh (lit "touch" :: rest) ∧
      mkshell_execute env sh (lit "rm" :: rest) = mkshell_rm env sh (lit "rm" :: rest) ∧
      mkshell_execute env sh (lit "clear_history" :: rest) = mkshell_clear_history env sh (lit "clear_history" :: rest) ∧
      mkshell_execute env sh (lit "cp" :: rest) = mkshell_cp env sh (lit "cp" :: rest) ∧
      mkshell_execute env sh (lit "path" :: rest) = mkshell_path env sh (lit "path" :: rest)) ∧
    (∀ (i : Nat) (name : List Char) (f : Builtin) (rest : List (List Char)),
      builtin_str[i]? = some name → builtin_func[i]? = some f →
        mkshell_execute env sh (name :: rest) = f.call env sh (name :: rest) ∧
        (HistOk sh → ∃ status sh1, mkshell_execute env sh (name :: rest) = .ok (status, sh1) ∧
          NoFork sh sh1)) ∧
    (∀ (arg0 : List Char) (rest : List (List Char)), arg0 ∉ builtin_str →
        mkshell_execute env sh (arg0 :: rest) = mkshell_launch env sh (arg0 :: rest) ∧
        ∃ sh1, mkshell_launch env sh (arg0 :: rest) = .ok (1, sh1) ∧
          (sh1.sys.drop sh.sys.length).count Sys.fork = 1 ∧
          sh1.history = sh.history ∧ sh1.history_count = sh.history_count) ∧
    (lit "CD" ∉ builtin_str ∧ lit "c" ∉ builtin_str ∧ lit "cdx" ∉ builtin_str) ∧
    mkshell_execute env sh [] = .ok (1, sh) := by
  refine ⟨builtin_str_nodup, rfl, rfl, rfl, by decide, ?_, ?_, ?_, by decide, rfl⟩
  · intro rest
    exact ⟨
      mkshell_execute_registered env sh 0 (lit "cd") Builtin.mkshell_cd rest rfl rfl,
      mkshell_execute_registered env sh 1 (lit "help") Builtin.mkshell_help rest rfl rfl,
      mkshell_execute_registered env sh 2 (lit "exit") Builtin.mkshell_exit rest rfl rfl,
      mkshell_execute_registered env sh 3 (lit "ls") Builtin.mkshell_ls rest rfl rfl,
      mkshell_execute_registered env sh 4 (lit "history") Builtin.mkshell_history rest rfl rfl,
      mkshell_execute_registered env sh 5 (lit "cat") Builtin.mkshell_cat rest rfl rfl,
      mkshell_execute_registered env sh 6 (lit "mkdir") Builtin.mkshell_mkdir rest rfl rfl,
      mkshell_execute_registered env sh 7 (lit "rmdir") Builtin.mkshell_rmdir rest rfl rfl,
      mkshell_execute_registered env sh 8 (lit "touch") Builtin.mkshell_touch rest rfl rfl,
      mkshell_execute_registered env sh 9 (lit "rm") Builtin.mkshell_rm rest rfl rfl,
      mkshell_execute_registered env sh 10 (lit "clear_history") Builtin.mkshell_clear_history rest rfl rfl,
      mkshell_execute_registered env sh 11 (lit "cp") Builtin.mkshell_cp rest rfl rfl,
      mkshell_execute_registered env sh 12 (lit "path") Builtin.mkshell_path rest rfl rfl⟩
  · intro i name f rest hs hf
    have hexec := mkshell_execute_registered env sh i name f rest hs hf
    refine ⟨hexec, ?_⟩
    intro h
    obtain ⟨sh1, hres, hnf⟩ := f.call_delivers env sh (name :: rest) h
    rw [← hexec] at hres
    exact ⟨_, sh1, hres, hnf⟩
  · intro arg0 rest hm
    refine ⟨mkshell_execute_unregistered env sh arg0 rest hm, ?_⟩
    obtain ⟨sh1, hres, hcount, _, hh, hc, _⟩ := mkshell_launch_spec env sh (arg0 :: rest)
    exact ⟨sh1, hres, hcount, hh, hc⟩

/-- C5 at concrete inputs: "CD" is not registered and goes to the launcher; `cd /tmp` makes
the one call `chdir("/tmp")`, `mkdir d` the one call `mkdir("d", 0777)`, `rm f` the one call
`remove("f")`, and `exit` returns 0 with the state untouched. -/
theorem dispatch_resolution_witness :
    lit "CD" ∉ builtin_str ∧
    mkshell_execute sampleEnv (Shell.start []) [lit "CD"]
      = mkshell_launch sampleEnv (Shell.start []) [lit "CD"] ∧
    mkshell_execute sampleEnv (Shell.start []) [lit "cd", lit "/tmp"]
      = .ok (1, (Shell.start []).call (Sys.chdir (lit "/tmp"))) ∧
    mkshell_execute sampleEnv (Shell.start []) [lit "mkdir", lit "d"]
      = .ok (1, (Shell.start []).call (Sys.mkdir (lit "d") 0o777)) ∧
    mkshell_execute sampleEnv (Shell.start []) [lit "rm", lit "f"]
      = .ok (1, (Shell.start []).call (Sys.remove (lit "f"))) ∧
    mkshell_execute sampleEnv (Shell.start []) [lit "exit"] = .ok (0, Shell.start []) :=
  ⟨by decide,
    ((dispatch_resolution sampleEnv (Shell.start [])).2.2.2.2.2.2.2.1 (lit "CD") []
      (by decide)).1,
    ((dispatch_resolution sampleEnv (Shell.start [])).2.2.2.2.2.1 [lit "/tmp"]).1.trans rfl,
    ((dispatch_resolution sampleEnv (Shell.start [])).2.2.2.2.2.1
      [lit "d"]).2.2.2.2.2.2.1.trans rfl,
    ((dispatch_resolution sampleEnv (Shell.start [])).2.2.2.2.2.1
      [lit "f"]).2.2.2.2.2.2.2.2.2.1.trans rfl,
    ((dispatch_resolution sampleEnv (Shell.start [])).2.2.2.2.2.1 []).2.2.1.trans rfl⟩

/-! ### Reading a line -/

theorem readLoop_spec (alloc : Nat → Bool) (halloc : ∀ n, alloc n = true) (l : List Char)
    (hl : NL ∉ l) :
    ∀ (buffer : List Char) (bufsize : Nat), buffer.length < bufsize →
      (∀ rest, readLoop alloc (l ++ NL :: rest) buffer bufsize
        = .ok (buffer ++ l ++ [NUL], rest)) ∧
      readLoop alloc l buffer bufsize = .ok (buffer ++ l ++ [NUL], []) := by
  induction l with
  | nil =>
    intro buffer bufsize hb
    constructor
    · intro rest
      show readLoop alloc (NL :: rest) buffer bufsize = _
      rw [readLoop, if_pos rfl, if_pos hb]
      simp
    · rw [readLoop, if_pos hb]
      simp
  | cons c l ih =>
    intro buffer bufsize hb
    have hc : c ≠ NL := by
      intro h; apply hl; rw [← h]; simp
    have hl2 : NL ∉ l := fun h => hl (by simp [h])
    have step : ∀ input, readLoop alloc (c :: input) buffer bufsize
        = readLoop alloc input (buffer ++ [c])
            (if buffer.length + 1 ≥ bufsize then bufsize + MKSHELL_RL_BUFSIZE else bufsize) := by
      intro input
      rw [readLoop, if_neg hc, if_pos hb]
      by_cases hfull : buffer.length + 1 ≥ bufsize
      · rw [if_pos hfull, if_pos hfull, halloc]
        simp
      · rw [if_neg hfull, if_neg hfull]
    have hb2 : (buffer ++ [c]).length
        < (if buffer.length + 1 ≥ bufsize then bufsize + MKSHELL_RL_BUFSIZE else bufsize) := by
      simp only [List.length_append, List.length_singleton, MKSHELL_RL_BUFSIZE]
      split <;> omega
    obtain ⟨h1, h2⟩ := ih hl2 (buffer ++ [c]) _ hb2
    constructor
    · intro rest
      show readLoop alloc (c :: (l ++ NL :: rest)) buffer bufsize = _
      rw [step, h1]
      simp
    · rw [step, h2]
      simp

theorem mkshell_read_line_spec (alloc : Nat → Bool) (halloc : ∀ n, alloc n = true)
    (l : List Char) (hl : NL ∉ l) :
    (∀ rest, mkshell_read_line false alloc (l ++ NL :: rest) = .ok (l ++ [NUL], rest)) ∧
    mkshell_read_line false alloc l = .ok (l ++ [NUL], []) := by
  obtain ⟨h1, h2⟩ := readLoop_spec alloc halloc l hl [] MKSHELL_RL_BUFSIZE (by decide)
  constructor
  · intro rest
    unfold mkshell_read_line
    simp only [Bool.false_eq_true, if_false, halloc, if_true]
    rw [h1]; simp
  · unfold mkshell_read_line
    simp only [Bool.false_eq_true, if_false, halloc, if_true]
    rw [h2]; simp

theorem cstr_append_nul (l : List Char) : cstr (l ++ [NUL]) 0 = cstr l 0 := by
  unfold cstr
  simp only [List.drop_zero]
  induction l with
  | nil => simp [List.takeWhile]
  | cons c l ih =>
    simp only [List.cons_append, List.takeWhile_cons]
    split
    · rw [ih]
    · rfl

/-! ### One cycle of the loop -/

theorem promptStep_ok (env : Env) (sh : Shell) (u c : List Char) (hu : env.user = some u)
    (hc : getcwd env CWD_SIZE = some c) :
    promptStep env sh = .ok (true, sh.print (shellPrompt u c)) ∧
    promptOf env = shellPrompt u c := by
  unfold promptStep promptOf
  rw [hc, hu]
  exact ⟨rfl, rfl⟩

/-- One cycle of the default build on a line `l`, read up to its newline or up to the end of
input: the prompt is printed, the ring records the line cut after its first token, and the
runs of the line are dispatched. -/
theorem loopBody_spec (env : Env) (sh : Shell) (l rest : List Char) (henv : EnvOk env)
    (hl : NL ∉ l) (hin : sh.stdin = l ++ NL :: rest ∨ (sh.stdin = l ∧ rest = [])) :
    loopBody false env sh =
      match mkshell_execute env
          (recordHistory { sh.print (promptOf env) with stdin := rest }
            (HSlot.str (firstTokenCut (cstr l 0))))
          (delimRuns (cstr l 0)) with
      | .error e => .error e
      | .ok (status, sh3) => .ok (some status, sh3) := by
  obtain ⟨halloc, u, c, hu, hc⟩ := henv
  obtain ⟨hp, hpo⟩ := promptStep_ok env sh u c hu hc
  obtain ⟨hr1, hr2⟩ := mkshell_read_line_spec env.alloc halloc l hl
  have hread : mkshell_read_line false env.alloc (sh.print (shellPrompt u c)).stdin
      = .ok (l ++ [NUL], rest) := by
    show mkshell_read_line false env.alloc sh.stdin = _
    rcases hin with h | ⟨h, hrest⟩
    · rw [h, hr1]
    · rw [h, hr2, hrest]
  obtain ⟨st, ptrs, hsplit, hargv, hmap, hcut, _⟩ :=
    mkshell_split_line_ok env.alloc halloc (l ++ [NUL])
  rw [cstr_append_nul] at hmap hcut
  have hargs := argvStrings_of st ptrs _ hargv hmap
  have hdup : strdup env.alloc st.line = HSlot.str (firstTokenCut (cstr l 0)) := by
    unfold strdup
    rw [halloc, hcut]
    simp
  unfold loopBody
  rw [hp]
  simp only
  rw [hread]
  simp only
  rw [hsplit]
  simp only
  rw [hargs]
  simp only
  rw [hdup, hpo]

/-! ### Runs of the loop -/

theorem mkshell_loop_succ (std : Bool) (fuel : Nat) (envs : Nat → Env) (sh : Shell) :
    mkshell_loop std (fuel + 1) envs sh =
      match loopBody std (envs 0) sh with
      | .error e => .error e
      | .ok (none, sh1) => .ok (.cwdError, sh1)
      | .ok (some status, sh1) =>
        if status ≠ 0 then mkshell_loop std fuel (fun i => envs (i + 1)) sh1
        else .ok (.returned, sh1) := rfl

theorem Ring.transfer {sh sh1 : Shell} {es : List HSlot} (h : Ring sh es)
    (h1 : sh1.history = sh.history) (h2 : sh1.history_count = sh.history_count) :
    Ring sh1 es := by
  unfold Ring at h ⊢
  rw [h1, h2]
  exact h

/-- Dispatching a line that names no built-in gives status 1 and leaves the ring, standard
input and standard output alone. -/
theorem mkshell_execute_external (env : Env) (sh : Shell) (l : List Char)
    (h : externalLine l = true) :
    ∃ sh1, mkshell_execute env sh (delimRuns (cstr l 0)) = .ok (1, sh1) ∧
      sh1.history = sh.history ∧ sh1.history_count = sh.history_count ∧
      sh1.out = sh.out ∧ sh1.stdin = sh.stdin := by
  unfold externalLine at h
  cases hr : delimRuns (cstr l 0) with
  | nil => exact ⟨sh, rfl, rfl, rfl, rfl, rfl⟩
  | cons arg0 rest =>
    rw [hr] at h
    simp only [List.head?_cons] at h
    have hm : arg0 ∉ builtin_str := by
      intro hmem
      have : builtin_str.elem arg0 = true := List.elem_eq_true_of_mem hmem
      rw [this] at h
      exact Bool.noConfusion h
    obtain ⟨sh1, hres, _, _, hh, hc, ho, hi⟩ := mkshell_launch_spec env sh (arg0 :: rest)
    rw [← mkshell_execute_unregistered env sh arg0 rest hm] at hres
    exact ⟨sh1, hres, hh, hc, ho, hi⟩

/-- One cycle on a line that names no built-in: the prompt is printed, the ring records the
line cut after its first token, the status is 1. -/
theorem loopBody_external (env : Env) (sh : Shell) (es : List HSlot) (l rest : List Char)
    (henv : EnvOk env) (hl : NL ∉ l) (hext : externalLine l = true)
    (hin : sh.stdin = l ++ NL :: rest ∨ (sh.stdin = l ∧ rest = [])) (hring : Ring sh es) :
    ∃ sh1, loopBody false env sh = .ok (some 1, sh1) ∧
      Ring sh1 (lastN MKSHELL_HISTSIZE (es ++ [HSlot.str (firstTokenCut (cstr l 0))])) ∧
      sh1.out = sh.out ++ [promptOf env] ∧ sh1.stdin = rest := by
  have hbody := loopBody_spec env sh l rest henv hl hin
  have hring0 : Ring { sh.print (promptOf env) with stdin := rest } es := hring.transfer rfl rfl
  obtain ⟨hring2, ho2, hi2, _, _⟩ := record_ring _ es
    (HSlot.str (firstTokenCut (cstr l 0))) hring0
  obtain ⟨sh1, hres, hh, hc, ho, hi⟩ := mkshell_execute_external env
    (recordHistory { sh.print (promptOf env) with stdin := rest }
      (HSlot.str (firstTokenCut (cstr l 0)))) l hext
  rw [hres] at hbody
  refine ⟨sh1, hbody, hring2.transfer hh hc, ?_, ?_⟩
  · rw [ho, ho2]; rfl
  · rw [hi, hi2]

theorem range_succ_map {β : Type} (n : Nat) (f : Nat → β) :
    (List.range (n + 1)).map f = f 0 :: (List.range n).map (fun i => f (i + 1)) := by
  rw [List.range_succ_eq_map, List.map_cons, List.map_map]
  rfl

/-- The loop of the default build run over lines that name no built-in: after as many cycles
as there are lines it is still running, has printed one prompt per line, and the ring holds
the last 10 entries, each the line cut after its first token. -/
theorem loop_external_lines (ls : List (List Char)) :
    ∀ (m : Nat) (envs : Nat → Env) (sh : Shell) (es : List HSlot) (rest : List Char),
      (∀ i, EnvOk (envs i)) → (∀ l ∈ ls, NL ∉ l ∧ externalLine l = true) →
      sh.stdin = feed ls rest → Ring sh es →
      ∃ sh1, mkshell_loop false (ls.length + m) envs sh
          = mkshell_loop false m (fun i => envs (i + ls.length)) sh1 ∧
        Ring sh1 (lastN MKSHELL_HISTSIZE
          (es ++ ls.map (fun l => HSlot.str (firstTokenCut (cstr l 0))))) ∧
        sh1.out = sh.out ++ (List.range ls.length).map (fun i => promptOf (envs i)) ∧
        sh1.stdin = rest := by
  induction ls with
  | nil =>
    intro m envs sh es rest _ _ hin hring
    refine ⟨sh, ?_, ?_, by simp, hin⟩
    · simp only [List.length_nil, Nat.zero_add, Nat.add_zero]
    · simp only [List.map_nil, List.append_nil]
      rw [lastN_of_le _ _ hring.2.2.1]
      exact hring
  | cons l ls ih =>
    intro m envs sh es rest henv hls hin hring
    obtain ⟨hl, hext⟩ := hls l (by simp)
    obtain ⟨sh1, hbody, hring1, ho1, hi1⟩ := loopBody_external (envs 0) sh es l (feed ls rest)
      (henv 0) hl hext (Or.inl hin) hring
    obtain ⟨sh2, hloop, hring2, ho2, hi2⟩ := ih m (fun i => envs (i + 1)) sh1 _ rest
      (fun i => henv (i + 1)) (fun x hx => hls x (by simp [hx])) hi1 hring1
    refine ⟨sh2, ?_, ?_, ?_, hi2⟩
    · have hfuel : (l :: ls).length + m = (ls.length + m) + 1 := by
        simp only [List.length_cons]; omega
      rw [hfuel, mkshell_loop_succ, hbody]
      simp only [ne_eq, one_ne_zero, not_false_eq_true, if_true]
      rw [hloop]
      rfl
    · rw [lastN_append] at hring2
      simpa using hring2
    · rw [ho2, ho1, List.length_cons, range_succ_map]
      simp

/-- At end of input the default build reads an empty line, dispatches the empty vector and
goes on: after any number of cycles the loop is still running. -/
theorem loop_at_eof (n : Nat) :
    ∀ (envs : Nat → Env) (sh : Shell), (∀ i, EnvOk (envs i)) → sh.stdin = [] →
      ∃ sh1, mkshell_loop false n envs sh = .ok (.running, sh1) ∧ sh1.stdin = [] ∧
        sh1.out = sh.out ++ (List.range n).map (fun i => promptOf (envs i)) := by
  induction n with
  | zero => intro envs sh _ hin; exact ⟨sh, rfl, hin, by simp⟩
  | succ n ih =>
    intro envs sh henv hin
    have hbody := loopBody_spec (envs 0) sh [] [] (henv 0) (by simp) (Or.inr ⟨hin, rfl⟩)
    have hrun : delimRuns (cstr [] 0) = [] := rfl
    rw [hrun] at hbody
    have hex : ∀ s : Shell, mkshell_execute (envs 0) s [] = .ok (1, s) := fun _ => rfl
    rw [hex] at hbody
    simp only at hbody
    obtain ⟨sh1, hloop, hi1, ho1⟩ := ih (fun i => envs (i + 1)) _ (fun i => henv (i + 1))
      (show (recordHistory { sh.print (promptOf (envs 0)) with stdin := [] }
        (HSlot.str (firstTokenCut (cstr [] 0)))).stdin = [] by
          unfold recordHistory; split <;> rfl)
    refine ⟨sh1, ?_, hi1, ?_⟩
    · rw [mkshell_loop_succ, hbody]
      simp only [ne_eq, one_ne_zero, not_false_eq_true, if_true]
      exact hloop
    · rw [ho1, range_succ_map]
      have : (recordHistory { sh.print (promptOf (envs 0)) with stdin := [] }
          (HSlot.str (firstTokenCut (cstr [] 0)))).out = sh.out ++ [promptOf (envs 0)] := by
        unfold recordHistory; split <;> rfl
      rw [this]
      simp

theorem EnvOk.sample : EnvOk sampleEnv :=
  ⟨fun _ => rfl, lit "u", lit "/h", rfl, rfl⟩

/-- The default build run for 13 cycles on `cmd1` .. `cmd12` and then `history`, in any
environment in which the cycles reach the dispatcher: what is on standard output. -/
theorem loop_twelve_then_history (envs : Nat → Env) (henv : ∀ i, EnvOk (envs i)) :
    ∃ sh, mkshell_loop false 13 envs (Shell.start twelveThenHistory) = .ok (.running, sh) ∧
      sh.out = (List.range 13).map (fun i => promptOf (envs i)) ++
        historyLinesFrom 0 [lit "cmd4", lit "cmd5", lit "cmd6", lit "cmd7", lit "cmd8",
          lit "cmd9", lit "cmd10", lit "cmd11", lit "cmd12", lit "history"] := by
  obtain ⟨sh1, hloop, hring1, ho1, hi1⟩ := loop_external_lines twelveCommands 1 envs
    (Shell.start twelveThenHistory) [] (lit "history\n") henv (by decide) (by decide)
    (ring_at_start _)
  have hes : lastN MKSHELL_HISTSIZE
      ([] ++ twelveCommands.map (fun l => HSlot.str (firstTokenCut (cstr l 0))))
      = [lit "cmd3", lit "cmd4", lit "cmd5", lit "cmd6", lit "cmd7", lit "cmd8",
          lit "cmd9", lit "cmd10", lit "cmd11", lit "cmd12"].map HSlot.str := by decide
  rw [hes] at hring1
  have hbody := loopBody_spec (envs 12) sh1 (lit "history") [] (henv 12) (by decide)
    (Or.inl hi1)
  have hring0 : Ring { sh1.print (promptOf (envs 12)) with stdin := [] } _ :=
    hring1.transfer rfl rfl
  obtain ⟨hring2, ho2, _⟩ := record_ring _ _
    (HSlot.str (firstTokenCut (cstr (lit "history") 0))) hring0
  have hes2 : lastN MKSHELL_HISTSIZE
      ([lit "cmd3", lit "cmd4", lit "cmd5", lit "cmd6", lit "cmd7", lit "cmd8",
          lit "cmd9", lit "cmd10", lit "cmd11", lit "cmd12"].map HSlot.str ++
        [HSlot.str (firstTokenCut (cstr (lit "history") 0))])
      = [lit "cmd4", lit "cmd5", lit "cmd6", lit "cmd7", lit "cmd8",
          lit "cmd9", lit "cmd10", lit "cmd11", lit "cmd12", lit "history"].map HSlot.str := by
    decide
  rw [hes2] at hring2
  have hruns : delimRuns (cstr (lit "history") 0) = [lit "history"] := by decide
  have hexec := mkshell_execute_registered (envs 12)
    (recordHistory { sh1.print (promptOf (envs 12)) with stdin := [] }
      (HSlot.str (firstTokenCut (cstr (lit "history") 0))))
    4 (lit "history") Builtin.mkshell_history [] rfl rfl
  have hhist := mkshell_history_ring (envs 12) _ _ [lit "history"] hring2
  rw [hruns, hexec] at hbody
  have hcall : ∀ s : Shell, Builtin.mkshell_history.call (envs 12) s [lit "history"]
      = mkshell_history (envs 12) s [lit "history"] := fun _ => rfl
  rw [hcall, hhist] at hbody
  simp only at hbody
  have hbody2 : ∃ sh3, loopBody false (envs 12) sh1 = .ok (some 1, sh3) ∧
      sh3.out = (sh1.out ++ [promptOf (envs 12)]) ++
        historyLinesFrom 0 [lit "cmd4", lit "cmd5", lit "cmd6", lit "cmd7", lit "cmd8",
          lit "cmd9", lit "cmd10", lit "cmd11", lit "cmd12", lit "history"] := by
    refine ⟨_, hbody, ?_⟩
    show _ ++ historyLinesFrom 0 _ = _
    rw [ho2]
    rfl
  obtain ⟨sh3, hb3, ho3⟩ := hbody2
  refine ⟨sh3, ?_, ?_⟩
  · have h13 : (13 : Nat) = twelveCommands.length + 1 := rfl
    rw [h13, hloop, mkshell_loop_succ]
    simp only [Nat.zero_add]
    rw [show twelveCommands.length = 12 from rfl, hb3]
    simp only [ne_eq, one_ne_zero, not_false_eq_true, if_true]
    rfl
  · rw [ho3, ho1]
    simp [Shell.start, List.range_succ, twelveCommands]

/-- C3, the code at the input line `cd /tmp`: after the cycle the ring holds one entry, the
string `cd`, not the line `cd /tmp` that was read; the line was cut by the tokenizer before
`strdup` copied it. -/
theorem history_entry_is_cut_line :
    (mkshell_loop false 1 (fun _ => sampleEnv) (Shell.start (lit "cd /tmp\n"))).map
        (fun r => (r.2.history.take r.2.history_count))
      = .ok [HSlot.str (lit "cd")] ∧
    HSlot.str (lit "cd") ≠ HSlot.str (lit "cd /tmp") := by
  constructor
  · decide
  · decide

/-- C7, the code at end of input: in the default build `mkshell_read_line` hands back an empty
line and the loop is still running after any number of cycles, one prompt printed in each;
with `MKSHELL_USE_STD_GETLINE` defined the same read ends the process with `EXIT_SUCCESS`. -/
theorem eof_default_build_keeps_looping :
    mkshell_read_line false (fun _ => true) [] = .ok ([NUL], []) ∧
    (∀ n, ∃ sh, mkshell_loop false n (fun _ => sampleEnv) (Shell.start []) = .ok (.running, sh) ∧
      sh.out.length = n) ∧
    mkshell_read_line true (fun _ => true) [] = .error (.exit EXIT_SUCCESS) ∧
    (∀ n, mkshell_loop true (n + 1) (fun _ => sampleEnv) (Shell.start [])
      = .error (.exit EXIT_SUCCESS)) := by
  refine ⟨rfl, ?_, rfl, fun n => rfl⟩
  intro n
  obtain ⟨sh, hloop, _, hout⟩ := loop_at_eof n (fun _ => sampleEnv) (Shell.start [])
    (fun _ => EnvOk.sample) rfl
  refine ⟨sh, hloop, ?_⟩
  rw [hout]
  simp [Shell.start]

/-- C8, counterexample: with user `u` and a working directory whose path has 101 bytes the
prompt has 106 bytes, and what the loop prints is not that string: it prints its first 99
bytes. -/
theorem prompt_cut_counterexample :
    promptStep longCwdEnv (Shell.start [])
      ≠ .ok (true, (Shell.start []).print
          (lit "u" ++ lit "@" ++ (lit "/" ++ List.replicate 100 (Char.ofNat 97)) ++ lit " > ")) ∧
    promptStep longCwdEnv (Shell.start [])
      = .ok (true, (Shell.start []).print
          (lit "u" ++ lit "@" ++ (lit "/" ++ List.replicate 96 (Char.ofNat 97)))) := by
  constructor
  · decide
  · decide

/-- C8, amended: for every user string `u` and working directory `c` of at most 1023 bytes the
loop prints the first 99 bytes of `u ++ "@" ++ c ++ " > "`, which is the whole string when it
has at most 99 bytes. -/
theorem prompt_is_first_99_bytes (env : Env) (sh : Shell) (u c : List Char)
    (hu : env.user = some u) (hc : env.cwd = some c) (hlen : c.length ≤ 1023) :
    promptStep env sh = .ok (true, sh.print ((u ++ lit "@" ++ c ++ lit " > ").take 99)) ∧
    ((u ++ lit "@" ++ c ++ lit " > ").length ≤ 99 →
      promptStep env sh = .ok (true, sh.print (u ++ lit "@" ++ c ++ lit " > "))) := by
  have hg : getcwd env CWD_SIZE = some c := by
    unfold getcwd
    rw [hc]
    simp only [CWD_SIZE]
    rw [if_pos (by omega)]
  have hp := (promptStep_ok env sh u c hu hg).1
  have hmain : promptStep env sh
      = .ok (true, sh.print ((u ++ lit "@" ++ c ++ lit " > ").take 99)) := by
    rw [hp]; rfl
  refine ⟨hmain, ?_⟩
  intro hshort
  rw [hmain, List.take_of_length_le hshort]

/-- C8 as amended, at a concrete input: user `u`, working directory `/h`. -/
theorem prompt_is_first_99_bytes_witness :
    sampleEnv.user = some (lit "u") ∧ sampleEnv.cwd = some (lit "/h") ∧
    (lit "/h").length ≤ 1023 ∧
    promptStep sampleEnv (Shell.start [])
      = .ok (true, (Shell.start []).print ((lit "u" ++ lit "@" ++ lit "/h" ++ lit " > ").take 99)) :=
  ⟨rfl, rfl, by decide,
    (prompt_is_first_99_bytes sampleEnv (Shell.start []) (lit "u") (lit "/h") rfl rfl
      (by decide)).1⟩

/-- C9, counterexample: in the sample environment, after the 13 cycles on `cmd1` .. `cmd12`
and `history`, what follows the 13 prompts on standard output is not the ten lines for
`cmd3` .. `cmd12`. -/
theorem history_after_twelve_counterexample :
    (mkshell_loop false 13 (fun _ => sampleEnv) (Shell.start twelveThenHistory)).map
        (fun r => r.2.out.drop 13)
      ≠ .ok [lit "0: cmd3\n", lit "1: cmd4\n", lit "2: cmd5\n", lit "3: cmd6\n",
          lit "4: cmd7\n", lit "5: cmd8\n", lit "6: cmd9\n", lit "7: cmd10\n",
          lit "8: cmd11\n", lit "9: cmd12\n"] := by
  obtain ⟨sh, hloop, hout⟩ := loop_twelve_then_history (fun _ => sampleEnv)
    (fun _ => EnvOk.sample)
  rw [hloop]
  show Except.ok (sh.out.drop 13) ≠ _
  rw [hout]
  decide

/-- C9, amended: running the default build from an empty history on the lines `cmd1` ..
`cmd12` and then `history`, in any environment in which the cycles reach the dispatcher, the
loop prints 13 prompts and the `history` built-in of the last cycle prints exactly the ten
lines `0: cmd4` .. `8: cmd12`, `9: history`: the line `history` is recorded before it is
dispatched. -/
theorem history_after_twelve_commands (envs : Nat → Env) (henv : ∀ i, EnvOk (envs i)) :
    ∃ sh, mkshell_loop false 13 envs (Shell.start twelveThenHistory) = .ok (.running, sh) ∧
      sh.out = (List.range 13).map (fun i => promptOf (envs i)) ++
        [lit "0: cmd4\n", lit "1: cmd5\n", lit "2: cmd6\n", lit "3: cmd7\n",
          lit "4: cmd8\n", lit "5: cmd9\n", lit "6: cmd10\n", lit "7: cmd11\n",
          lit "8: cmd12\n", lit "9: history\n"] := by
  obtain ⟨sh, hloop, hout⟩ := loop_twelve_then_history envs henv
  refine ⟨sh, hloop, ?_⟩
  rw [hout]
  congr 1

/-- C9 as amended, at a concrete input: the sample environment in every cycle. -/
theorem history_after_twelve_commands_witness :
    (∀ i : Nat, EnvOk ((fun _ => sampleEnv) i)) ∧
    ∃ sh, mkshell_loop false 13 (fun _ => sampleEnv) (Shell.start twelveThenHistory)
        = .ok (.running, sh) ∧
      sh.out = (List.range 13).map (fun i => promptOf ((fun _ => sampleEnv) i)) ++
        [lit "0: cmd4\n", lit "1: cmd5\n", lit "2: cmd6\n", lit "3: cmd7\n",
          lit "4: cmd8\n", lit "5: cmd9\n", lit "6: cmd10\n", lit "7: cmd11\n",
          lit "8: cmd12\n", lit "9: history\n"] :=
  ⟨fun _ => EnvOk.sample,
    history_after_twelve_commands (fun _ => sampleEnv) (fun _ => EnvOk.sample)⟩

end MKShell
